import Mathlib

/-!
# yandexcloud/metadata: a shallow embedding of `main.go`

The program is one sequential pass: it builds, per provider, a list of
`attribute`s (a built-in table followed by the attributes declared in the
process environment), issues one HTTP GET per attribute and writes each
response body to a file.

Go strings are modelled as lists of characters (`Str`), i.e. as valid UTF-8
texts; the character classes used by the program are ASCII only.  The
library calls of `main.go` (`strings`, `regexp`, `strconv`, `path`, `os`,
`ioutil`, `net/http`) are modelled by their documented behaviour; a run-time
panic (index out of range) is the result `none`.
-/

namespace Metadata

/-- A Go string, as the list of its characters. -/
abbrev Str := List Char

/-! ## `strings` -/

/-- Go `strings.HasPrefix(s, pfx)`. -/
def HasPrefix (s pfx : Str) : Bool := pfx.isPrefixOf s

/-- Go `strings.Cut(s, sep)` for a non-empty `sep`: the text before and after
the first occurrence of `sep`, or `none` when `sep` does not occur. -/
def Cut (sep : Str) : Str → Option (Str × Str)
  | [] => none
  | c :: cs =>
    if sep.isPrefixOf (c :: cs) then some ([], (c :: cs).drop sep.length)
    else (Cut sep cs).map (fun p => (c :: p.1, p.2))

/-- Go `strings.SplitN(s, sep, n)` for a non-empty `sep` and `n ≥ 0`: at most
`n` pieces, the last one being the unsplit remainder; `n = 0` gives no piece. -/
def SplitN (s sep : Str) : Nat → List Str
  | 0 => []
  | 1 => [s]
  | n + 2 =>
    match Cut sep s with
    | none => [s]
    | some (a, b) => a :: SplitN b sep (n + 1)

/-! ## `regexp` -/

/-- One item of a bracketed character class. -/
inductive ClassItem where
  /-- The Perl class `\w`, in Go `[0-9A-Za-z_]`. -/
  | word : ClassItem
  /-- The Perl class `\d`, in Go `[0-9]`. -/
  | digit : ClassItem
  /-- A literal character. -/
  | lit : Char → ClassItem

/-- ASCII decimal digit. -/
def isDigit (c : Char) : Bool := decide (48 ≤ c.toNat ∧ c.toNat ≤ 57)

/-- Go's `\w`: an ASCII letter, an ASCII digit or the underscore. -/
def isWord (c : Char) : Bool :=
  isDigit c || decide (65 ≤ c.toNat ∧ c.toNat ≤ 90) ||
    decide (97 ≤ c.toNat ∧ c.toNat ≤ 122) || decide (c.toNat = 95)

/-- Whether a character belongs to a class item. -/
def ClassItem.test : ClassItem → Char → Bool
  | .word, c => isWord c
  | .digit, c => isDigit c
  | .lit d, c => decide (c = d)

/-- Whether a character belongs to a bracketed class. -/
def inClass (items : List ClassItem) (c : Char) : Bool := items.any (fun i => i.test c)

/-- The regular expressions that `main.go` uses. -/
inductive Regex where
  /-- `^`: the beginning of the text. -/
  | beginText : Regex
  /-- `$`: the end of the text (no multi-line flag). -/
  | endText : Regex
  /-- `[...]`: one character of a class. -/
  | cls : List ClassItem → Regex
  /-- One literal character. -/
  | lit : Char → Regex
  /-- `ab`: concatenation. -/
  | cat : Regex → Regex → Regex
  /-- `a+`: one or more, greedy. -/
  | plus : Regex → Regex
  /-- `a{n}`: exactly `n` times. -/
  | rep : Nat → Regex → Regex
  /-- `(a)`: capturing group number `i`. -/
  | cap : Nat → Regex → Regex

/-- A position of the matcher: the number of characters consumed since the
beginning of the text, the rest of the text, and the groups captured so far
(most recent first). -/
structure MState where
  pos : Nat
  rest : Str
  caps : List (Nat × Str)

/-- One or more runs of `step`, preferring more (greedy); every further
iteration must consume input.  The first argument bounds the iterations. -/
def plusRun (step : MState → List MState) : Nat → MState → List MState
  | 0, _ => []
  | n + 1, s =>
    (step s).flatMap fun s' =>
      (if s'.rest.length < s.rest.length then plusRun step n s' else []) ++ [s']

/-- Exactly `n` runs of `step`. -/
def repRun (step : MState → List MState) : Nat → MState → List MState
  | 0, s => [s]
  | n + 1, s => (step s).flatMap (repRun step n)

/-- All the ways `r` matches at a position, in the order of preference of a
backtracking (leftmost-first) matcher: the head is the match Go reports. -/
def run : Regex → MState → List MState
  | .beginText, s => if s.pos = 0 then [s] else []
  | .endText, s => if s.rest = [] then [s] else []
  | .cls items, s =>
    match s.rest with
    | [] => []
    | c :: cs => if inClass items c then [{ s with pos := s.pos + 1, rest := cs }] else []
  | .lit d, s =>
    match s.rest with
    | [] => []
    | c :: cs => if c = d then [{ s with pos := s.pos + 1, rest := cs }] else []
  | .cat a b, s => (run a s).flatMap (run b)
  | .plus a, s => plusRun (run a) (s.rest.length + 1) s
  | .rep n a, s => repRun (run a) n s
  | .cap i a, s =>
    (run a s).map fun s' =>
      { s' with caps := (i, s.rest.take (s.rest.length - s'.rest.length)) :: s'.caps }

/-- The text of group `i` in a final matcher state (empty when unset). -/
def group (s : MState) (i : Nat) : Str := (s.caps.lookup i).getD []

/-- What `FindStringSubmatch` reports for a match that started at `rest` and
ended in the state `r`: the matched text followed by the `n` groups. -/
def submatches (n : Nat) (rest : Str) (r : MState) : List Str :=
  rest.take (rest.length - r.rest.length) :: (List.range n).map (fun i => group r (i + 1))

/-- The search of `FindStringSubmatch`: try the start positions from left to
right and report the first match. -/
def findFrom (re : Regex) (n : Nat) : Nat → Str → List Str
  | pos, [] =>
    match (run re ⟨pos, [], []⟩).head? with
    | some r => submatches n [] r
    | none => []
  | pos, c :: cs =>
    match (run re ⟨pos, c :: cs, []⟩).head? with
    | some r => submatches n (c :: cs) r
    | none => findFrom re n (pos + 1) cs

/-- The number of capturing groups of a regular expression. -/
def Regex.numCap : Regex → Nat
  | .cat a b => a.numCap + b.numCap
  | .plus a => a.numCap
  | .rep _ a => a.numCap
  | .cap _ a => a.numCap + 1
  | _ => 0

/-- Go `re.FindStringSubmatch(s)`: `nil` (the empty list) when `re` does not
match, else the leftmost match followed by the text of each group. -/
def FindStringSubmatch (re : Regex) (s : Str) : List Str := findFrom re re.numCap 0 s

/-- The class `[\w-_/]`: in Go a `-` after a Perl class is a literal. -/
def keyClass : List ClassItem := [.word, .lit '-', .lit '_', .lit '/']

/-- The class `[\w-_/\.]`. -/
def fileClass : List ClassItem := [.word, .lit '-', .lit '_', .lit '/', .lit '.']

/-- `main.go:23`, `envrgx`: the pattern
`^([\w-_/]+),([\w-_/\.]+),([\d]{4})$`. -/
def envrgx : Regex :=
  .cat .beginText
    (.cat (.cap 1 (.plus (.cls keyClass)))
      (.cat (.lit ',')
        (.cat (.cap 2 (.plus (.cls fileClass)))
          (.cat (.lit ',')
            (.cat (.cap 3 (.rep 4 (.cls [.digit])))
              .endText)))))

/-- The three fields of a value that `envrgx` matches, read off by scanning:
the longest run of key characters, a comma, the longest run of file
characters, a comma, and four digits up to the end.  It is the reference the
matcher is compared with (`FindStringSubmatch_envrgx`). -/
def envFields (v : Str) : Option (Str × Str × Str) :=
  match v.dropWhile (inClass keyClass) with
  | [] => none
  | c :: t =>
    match t.dropWhile (inClass fileClass) with
    | [] => none
    | c2 :: d =>
      if c = ',' ∧ c2 = ',' ∧ v.takeWhile (inClass keyClass) ≠ [] ∧
          t.takeWhile (inClass fileClass) ≠ [] ∧ d.length = 4 ∧ d.all isDigit = true
      then some (v.takeWhile (inClass keyClass), t.takeWhile (inClass fileClass), d)
      else none

/-! ## `strconv` -/

/-- The errors of `strconv.ParseUint`. -/
inductive NumError where
  | ErrSyntax : NumError
  | ErrRange : NumError
  | ErrBase : NumError
  | ErrBitSize : NumError
  deriving DecidableEq, Repr

/-- The largest `uint64`. -/
def maxUint64 : Nat := 2 ^ 64 - 1

/-- Go `lower(c) = c | ('x' - 'X')` of package `strconv`. -/
def lower (c : Nat) : Nat := c ||| 0x20

/-- The value of a digit character in `ParseUint`, for any base up to 36. -/
def digitVal (c : Char) : Option Nat :=
  if 48 ≤ c.toNat ∧ c.toNat ≤ 57 then some (c.toNat - 48)
  else if 97 ≤ lower c.toNat ∧ lower c.toNat ≤ 122 then some (lower c.toNat - 97 + 10)
  else none

/-- The digit loop of `strconv.ParseUint`, on `uint64` arithmetic. -/
def parseLoop (base cutoff maxVal : Nat) : Str → Nat → Nat × Option NumError
  | [], n => (n, none)
  | c :: cs, n =>
    match digitVal c with
    | none => (0, some .ErrSyntax)
    | some d =>
      if base ≤ d then (0, some .ErrSyntax)
      else if cutoff ≤ n then (maxVal, some .ErrRange)
      else
        let n0 := (n * base) % 2 ^ 64
        let n1 := (n0 + d) % 2 ^ 64
        if n1 < n0 ∨ maxVal < n1 then (maxVal, some .ErrRange)
        else parseLoop base cutoff maxVal cs n1

/-- Go `strconv.ParseUint(s, base, bitSize)` for an explicit base `2..36`
(the prefix inference of base 0 is not used by the program): the value and
the error, exactly as the two results of the Go function. -/
def ParseUint (s : Str) (base bitSize : Nat) : Nat × Option NumError :=
  if s = [] then (0, some .ErrSyntax)
  else if ¬ (2 ≤ base ∧ base ≤ 36) then (0, some .ErrBase)
  else if 64 < bitSize then (0, some .ErrBitSize)
  else
    let bits := if bitSize = 0 then 64 else bitSize
    parseLoop base (maxUint64 / base + 1) (2 ^ bits - 1) s 0

/-- The conversion `uint(x)` of a `uint64` on a 64-bit platform. -/
def uint (x : Nat) : Nat := x % 2 ^ 64

/-! ## The data of `main.go` -/

/-- `main.go:16`. -/
def cfgPath : Str := "/run/config".toList

/-- `main.go:18`. -/
def metadataURL : Str := "http://169.254.169.254".toList

/-- `main.go:20`. -/
def gcpURL : Str := metadataURL ++ "/computeMetadata/v1/instance/".toList

/-- `main.go:21`. -/
def awsURL : Str := metadataURL ++ "/latest/meta-data/".toList

/-- `main.go:32`. -/
structure header where
  name : Str
  value : Str
  deriving DecidableEq, Repr

/-- `main.go:37`. -/
def gcpHeaders : List header := [⟨"Metadata-Flavor".toList, "Google".toList⟩]

/-- `main.go:44`. -/
def awsHeaders : List header := []

/-- `main.go:46`, the struct `attribute` (a reserved word of Lean, hence the
capital). -/
structure Attribute where
  key : Str
  file : Str
  mode : Nat
  deriving DecidableEq, Repr

/-- `main.go:52`. -/
def gcpAttributes : List Attribute :=
  [ ⟨"hostname".toList, "hostname".toList, 0o644⟩,
    ⟨"name".toList, "local_hostname".toList, 0o644⟩,
    ⟨"attributes/ssh-keys".toList, "ssh/authorized_keys".toList, 0o600⟩,
    ⟨"attributes/user-data".toList, "userdata".toList, 0o644⟩ ]

/-- `main.go:75`. -/
def awsAttributes : List Attribute :=
  [ ⟨"instance-id".toList, "instance_id".toList, 0o644⟩,
    ⟨"local-ipv4".toList, "local_ipv4".toList, 0o644⟩,
    ⟨"public-ipv4".toList, "public_ipv4".toList, 0o644⟩,
    ⟨"public-ipv4".toList, "public_ipv4".toList, 0o644⟩ ]

/-- The lines the program prints through its two loggers `INF` and `ERR`, one
constructor per format string of `main.go`. -/
inductive Log where
  /-- `INF "GCP: get %s -> %s"`, `INF "AWS: get %s -> %s"`. -/
  | infGet : Str → Str → Str → Log
  /-- `INF "retrieving %s"`. -/
  | infRetrieving : Str → Log
  /-- `ERR "unable to create request: %v"`. -/
  | errCreateRequest : Log
  /-- `ERR "request failed: %v"`. -/
  | errRequestFailed : Log
  /-- `ERR "unexpected status code: %d"`. -/
  | errStatus : Nat → Log
  /-- `ERR "unable to read response: %v"`. -/
  | errRead : Log
  /-- `ERR "unable to create directory %s: %v"`. -/
  | errMkdir : Str → Log
  /-- `ERR "unable to write file: %v"`. -/
  | errWrite : Log
  /-- `ERR "unable to parse mode for env %s: %v"`. -/
  | errParseMode : Str → NumError → Log
  deriving DecidableEq, Repr

/-- Whether a line went to the `ERR` logger. -/
def Log.isErr : Log → Bool
  | .infGet _ _ _ => false
  | .infRetrieving _ => false
  | _ => true

/-! ## `fromEnv` -/

/-- The body of the `for` loop of `fromEnv` (`main.go:155-175`) over the
entries still to scan, with the attributes and the log lines accumulated so
far.  `none` is the run-time panic of an index out of range. -/
def fromEnvLoop (pfx : Str) : List Str → List Attribute → List Log → Option (List Attribute × List Log)
  | [], attrs, log => some (attrs, log)
  | e :: es, attrs, log =>
    let kv := SplitN e "=".toList 2
    match kv[0]? with
    | none => none
    | some name =>
      if !HasPrefix name pfx then fromEnvLoop pfx es attrs log
      else
        match kv[1]? with
        | none => none
        | some value =>
          let m := FindStringSubmatch envrgx value
          if m.length < 1 then fromEnvLoop pfx es attrs log
          else
            match m[3]? with
            | none => none
            | some m3 =>
              let r := ParseUint m3 8 32
              let log1 := match r.2 with
                | some err => log ++ [Log.errParseMode e err]
                | none => log
              match m[1]?, m[2]? with
              | some m1, some m2 => fromEnvLoop pfx es (attrs ++ [⟨m1, m2, uint r.1⟩]) log1
              | _, _ => none

/-- `main.go:153`, `fromEnv(prefix)` on the environment `environ`
(`os.Environ()`): the attributes it returns and the lines it logs, or `none`
when it panics. -/
def fromEnv (pfx : Str) (environ : List Str) : Option (List Attribute × List Log) :=
  fromEnvLoop pfx environ [] []

/-- The name of an environment entry as `fromEnv` reads it: `kv[0]`. -/
def entryName (e : Str) : Str := (SplitN e "=".toList 2).headD []

/-- The value of an environment entry as `fromEnv` reads it: `kv[1]`, which
exists only when the entry holds a `=`. -/
def entryValue (e : Str) : Option Str := (SplitN e "=".toList 2)[1]?

/-- An octal digit `0`..`7`. -/
def isOctDigit (c : Char) : Bool := decide (48 ≤ c.toNat ∧ c.toNat ≤ 55)

/-- The base-8 value of a string of digits, most significant digit first. -/
def octalValue (ds : Str) : Nat := Nat.ofDigits 8 (ds.reverse.map (fun c => c.toNat - 48))

/-! ## `path` -/

/-- The elements of a path between its slashes (`"a//b"` has the elements
`a`, the empty element and `b`). -/
def splitSlash : Str → List Str
  | [] => [[]]
  | c :: cs =>
    if c = '/' then [] :: splitSlash cs
    else
      match splitSlash cs with
      | [] => [[c]]
      | h :: t => (c :: h) :: t

/-- One element of the loop of Go `path.Clean`: the elements written so far
and the number of leading `..` elements that cannot be dropped. -/
def cleanStep (rooted : Bool) (st : List Str × Nat) (e : Str) : List Str × Nat :=
  if e = [] ∨ e = ['.'] then st
  else if e = ['.', '.'] then
    if st.2 < st.1.length then (st.1.dropLast, st.2)
    else if rooted then st
    else (st.1 ++ [e], st.1.length + 1)
  else (st.1 ++ [e], st.2)

/-- Go `path.Clean`: the shortest path equivalent to `p` by purely lexical
processing. -/
def Clean (p : Str) : Str :=
  if p = [] then ['.']
  else
    let rooted := decide (p.head? = some '/')
    let out := ((splitSlash p).foldl (cleanStep rooted) ([], 0)).1
    if rooted then '/' :: List.intercalate ['/'] out
    else if out = [] then ['.']
    else List.intercalate ['/'] out

/-- Go `path.Dir`: `Clean` of everything up to and including the last slash. -/
def Dir (p : Str) : Str := Clean (p.reverse.dropWhile (fun c => c != '/')).reverse

/-! ## The file system (`os`, `ioutil`) -/

/-- The content of a file. -/
abbrev Bytes := List Nat

/-- A file with its permission bits and content, or a directory with its
permission bits. -/
inductive Node where
  | file : Nat → Bytes → Node
  | dir : Nat → Node
  deriving DecidableEq, Repr

/-- An absolute, resolved path: the names from the root down. -/
abbrev Path := List Str

/-- The part of the operating system the program acts on: the working
directory and the umask of the process, and the tree of files. -/
structure FS where
  cwd : Path
  umask : Nat
  node : Path → Option Node

/-- The tree with `n` placed at `p`. -/
def FS.set (fs : FS) (p : Path) (n : Node) : FS :=
  { fs with node := fun q => if q = p then some n else fs.node q }

/-- Path resolution over directories: follow the elements `es` from the
directory `cur`; every named element must be an existing directory. -/
def walk (fs : FS) : Path → List Str → Option Path
  | cur, [] => some cur
  | cur, e :: es =>
    if e = [] ∨ e = ['.'] then walk fs cur es
    else if e = ['.', '.'] then walk fs cur.dropLast es
    else
      match fs.node (cur ++ [e]) with
      | some (.dir _) => walk fs (cur ++ [e]) es
      | _ => none

/-- Where the resolution of `p` starts: the root for an absolute path, the
working directory for a relative one. -/
def origin (fs : FS) (p : Str) : Path := if p.head? = some '/' then [] else fs.cwd

/-- The place a path names: the directory its last element lies in, and that
element; `none` when the path is empty or a directory on the way is missing. -/
def locate (fs : FS) (p : Str) : Option (Path × Str) :=
  if p = [] then none
  else (walk fs (origin fs p) (splitSlash p).dropLast).map (fun d => (d, (splitSlash p).getLast?.getD []))

/-- Go `os.Stat` (there are no symbolic links, so also `os.Lstat`): the node
a path names, if any. -/
def Stat (fs : FS) (p : Str) : Option Node :=
  match locate fs p with
  | none => none
  | some (d, last) =>
    if last = [] ∨ last = ['.'] then fs.node d
    else if last = ['.', '.'] then fs.node d.dropLast
    else fs.node (d ++ [last])

/-- Go `FileMode`: a 32-bit value. -/
def FileMode (m : Nat) : Nat := m % 2 ^ 32

/-- Go `os.ModeDir`. -/
def ModeDir : Nat := 2 ^ 31

/-- Go `syscallMode` of package `os`: the nine permission bits, and the
setuid, setgid and sticky bits taken from Go's own flag positions. -/
def syscallMode (m : Nat) : Nat :=
  (m &&& 0o777) ||| (if m &&& 2 ^ 23 = 0 then 0 else 0o4000) |||
    (if m &&& 2 ^ 22 = 0 then 0 else 0o2000) ||| (if m &&& 2 ^ 20 = 0 then 0 else 0o1000)

/-- The mode a new file or directory gets when `perm` is requested: the
kernel clears the bits of the umask. -/
def createMode (fs : FS) (perm : Nat) : Nat :=
  syscallMode perm &&& (0o7777 ^^^ (fs.umask &&& 0o777))

/-- Go `os.Mkdir(p, perm)`: whether it succeeded, and the tree after it. -/
def Mkdir (p : Str) (perm : Nat) (fs : FS) : Bool × FS :=
  let q := (p.reverse.dropWhile (fun c => c == '/')).reverse
  match locate fs q with
  | none => (false, fs)
  | some (d, last) =>
    if last = [] ∨ last = ['.'] ∨ last = ['.', '.'] then (false, fs)
    else
      match fs.node (d ++ [last]) with
      | some _ => (false, fs)
      | none => (true, fs.set (d ++ [last]) (.dir (createMode fs perm)))

/-- Go `os.MkdirAll(p, perm)`, following the library source: succeed if `p`
is a directory, fail if it is a file, else create the parent and then `p`.
The first argument bounds the recursion over the parents. -/
def MkdirAll : Nat → Str → Nat → FS → Bool × FS
  | 0, _, _, fs => (false, fs)
  | n + 1, p, perm, fs =>
    match Stat fs p with
    | some (.dir _) => (true, fs)
    | some (.file _ _) => (false, fs)
    | none =>
      let upTo := (p.reverse.dropWhile (fun c => c == '/')).dropWhile (fun c => c != '/')
      let up := if 1 < upTo.length then MkdirAll n (upTo.drop 1).reverse perm fs else (true, fs)
      if !up.1 then up
      else
        let made := Mkdir p perm up.2
        if made.1 then made
        else
          match Stat up.2 p with
          | some (.dir _) => (true, up.2)
          | _ => (false, up.2)

/-- Go `ioutil.WriteFile(name, data, perm)`, i.e. `OpenFile(name,
O_WRONLY|O_CREATE|O_TRUNC, perm)`, write, close.  As documented: "If the file
does not exist, WriteFile creates it with permissions perm (before umask);
otherwise WriteFile truncates it before writing, without changing
permissions." -/
def WriteFile (name : Str) (data : Bytes) (perm : Nat) (fs : FS) : Bool × FS :=
  match locate fs name with
  | none => (false, fs)
  | some (d, last) =>
    if last = [] ∨ last = ['.'] ∨ last = ['.', '.'] then (false, fs)
    else
      match fs.node (d ++ [last]) with
      | some (.dir _) => (false, fs)
      | some (.file m _) => (true, fs.set (d ++ [last]) (.file m data))
      | none => (true, fs.set (d ++ [last]) (.file (createMode fs perm) data))

/-- Go `os.Chdir(p)`: the tree with the working directory moved, or `none`
when `p` does not name a directory. -/
def Chdir (p : Str) (fs : FS) : Option FS :=
  if p = [] then none
  else
    match walk fs (origin fs p) (splitSlash p) with
    | none => none
    | some d =>
      match fs.node d with
      | some (.dir _) => some { fs with cwd := d }
      | _ => none

/-- The tree `fs1` is `fs` with directories added where `fs` had nothing:
same working directory, same umask, and every node of `fs` kept. -/
def addsDirs (fs fs1 : FS) : Prop :=
  fs1.cwd = fs.cwd ∧ fs1.umask = fs.umask ∧
    ∀ p, fs1.node p = fs.node p ∨ (fs.node p = none ∧ ∃ m, fs1.node p = some (.dir m))

/-- The permission bits `WriteFile` leaves on the file at `q` when asked for
`perm`: those of the file that was there, else `perm` less the umask. -/
def writtenMode (fs : FS) (q : Path) (perm : Nat) : Nat :=
  match fs.node q with
  | some (.file m _) => m
  | _ => createMode fs perm

/-- The tree `fs1` differs from `fs` only strictly below the working
directory of `fs`, which is also that of `fs1`. -/
def below (fs fs1 : FS) : Prop :=
  fs1.cwd = fs.cwd ∧ ∀ p, fs1.node p ≠ fs.node p → fs.cwd <+: p ∧ p ≠ fs.cwd

/-! ## `net/http` -/

/-- A request as `get` builds it. -/
structure Request where
  Method : Str
  URL : Str
  Header : List header
  deriving DecidableEq, Repr

/-- Go `req.Header.Set(name, value)`: replace the values of `name` (the names
the program uses are already in canonical form). -/
def Request.Set (r : Request) (name value : Str) : Request :=
  { r with Header := r.Header.filter (fun h => h.name != name) ++ [⟨name, value⟩] }

/-- A response: its status code and what `ioutil.ReadAll(resp.Body)` gives,
`none` being a read error. -/
structure Response where
  StatusCode : Nat
  Body : Option Bytes
  deriving DecidableEq, Repr

/-- What the program does not decide: whether `http.NewRequest` accepts a URL,
and what `client.Do` answers to the `i`-th request of the run (`none` is a
transport error or the timeout). -/
structure World where
  NewRequest : Str → Bool
  Do : Nat → Request → Option Response

/-- The state of a run: the file system, the requests sent so far and the
lines logged so far. -/
structure State where
  fs : FS
  requests : List Request
  log : List Log

/-- Append a line to the log. -/
def State.print (st : State) (l : Log) : State := { st with log := st.log ++ [l] }

/-- The request `get` sends: `http.NewRequest("GET", fullURL, nil)` with every
header set (`main.go:101-109`). -/
def newRequest (fullURL : Str) (headers : List header) : Request :=
  headers.foldl (fun r h => r.Set h.name h.value) ⟨"GET".toList, fullURL, []⟩

/-! ## `get` and `main` -/

/-- `main.go:98`, `get(url, key, file, mode, headers)`. -/
def get (W : World) (url key file : Str) (mode : Nat) (headers : List header) (st : State) : State :=
  let fullURL := url ++ key
  if !W.NewRequest fullURL then st.print .errCreateRequest
  else
    let req := newRequest fullURL headers
    let st1 := st.print (.infRetrieving fullURL)
    let st2 := { st1 with requests := st1.requests ++ [req] }
    match W.Do st1.requests.length req with
    | none => st2.print .errRequestFailed
    | some resp =>
      if resp.StatusCode ≠ 200 then st2.print (.errStatus resp.StatusCode)
      else
        match resp.Body with
        | none => st2.print .errRead
        | some body =>
          let dir := Dir file
          let made := if dir ≠ ['.'] then MkdirAll (dir.length + 1) dir (ModeDir ||| 0o775) st2.fs else (true, st2.fs)
          if !made.1 then { st2 with fs := made.2 }.print (.errMkdir dir)
          else
            let wrote := WriteFile file body (FileMode mode) made.2
            if !wrote.1 then { st2 with fs := wrote.2 }.print .errWrite
            else { st2 with fs := wrote.2 }

/-- The lines a step of the program printed: the log of `after` beyond that of
`before`. -/
def printed (before after : State) : List Log := after.log.drop before.log.length

/-- No line went to the `ERR` logger between two states. -/
def noError (before after : State) : Bool := (printed before after).all (fun l => !l.isErr)

/-- A path is relative: it does not start with a slash. -/
def isRelative (p : Str) : Bool := p.head? != some '/'

/-- A path holds a `..` element. -/
def hasDotDot (p : Str) : Bool := (splitSlash p).contains ['.', '.']

/-- A concrete tree for the examples: the root, `/run`, and the umask 022;
`/run/config` does not exist yet. -/
def bootFS : FS :=
  { cwd := [],
    umask := 0o022,
    node := fun p => if p = [] ∨ p = ["run".toList] then some (.dir 0o755) else none }

/-- A tree in which the working directory `/run/config` already holds a file
`hostname` with the permission bits 0600. -/
def configFS : FS :=
  { cwd := ["run".toList, "config".toList],
    umask := 0o022,
    node := fun p =>
      if p = [] ∨ p = ["run".toList] ∨ p = ["run".toList, "config".toList] then some (.dir 0o755)
      else if p = ["run".toList, "config".toList, "hostname".toList] then some (.file 0o600 [111, 108, 100])
      else none }

/-- A metadata service for the examples: it answers the first request of a
run with status 404 and every later one with status 200 and the body `hello`. -/
def sampleWorld : World :=
  { NewRequest := fun _ => true,
    Do := fun i _ => if i = 0 then some ⟨404, some []⟩ else some ⟨200, some [104, 101, 108, 108, 111]⟩ }

/-- A metadata service that answers every request with status 200 and the
body `hello`. -/
def helloWorld : World :=
  { NewRequest := fun _ => true,
    Do := fun _ _ => some ⟨200, some [104, 101, 108, 108, 111]⟩ }

/-- A tree in which `/run` is a file, so that `/run/config` cannot be
created. -/
def brokenFS : FS :=
  { cwd := [],
    umask := 0o022,
    node := fun p =>
      if p = [] then some (.dir 0o755)
      else if p = ["run".toList] then some (.file 0o644 [])
      else none }

/-- `main.go:143`. -/
def gcpGet (W : World) (key file : Str) (mode : Nat) (st : State) : State :=
  get W gcpURL key file mode gcpHeaders (st.print (.infGet "GCP".toList key file))

/-- `main.go:148`. -/
def awsGet (W : World) (key file : Str) (mode : Nat) (st : State) : State :=
  get W awsURL key file mode awsHeaders (st.print (.infGet "AWS".toList key file))

/-- How a run ends: exit status 0, `os.Exit(1)`, or a panic. -/
inductive Exit where
  | done : Exit
  | fatal : Exit
  | panic : Exit
  deriving DecidableEq, Repr

/-- `main.go:190-198`, the pass: each provider's table followed by its
attributes from the environment, one `get` per attribute. -/
def pass (W : World) (environ : List Str) (st : State) : Exit × State :=
  match fromEnv "GCP_".toList environ with
  | none => (.panic, st)
  | some (g, lg) =>
    let st1 := (gcpAttributes ++ g).foldl (fun s a => gcpGet W a.key a.file a.mode s)
      { st with log := st.log ++ lg }
    match fromEnv "AWS_".toList environ with
    | none => (.panic, st1)
    | some (a, la) =>
      (.done, (awsAttributes ++ a).foldl (fun s x => awsGet W x.key x.file x.mode s)
        { st1 with log := st1.log ++ la })

/-- `main.go:179`, `main`. -/
def main (W : World) (environ : List Str) (st : State) : Exit × State :=
  let made := MkdirAll (cfgPath.length + 1) cfgPath 0o755 st.fs
  if !made.1 then (.fatal, { st with fs := made.2 })
  else
    match Chdir cfgPath made.2 with
    | none => (.fatal, { st with fs := made.2 })
    | some fs1 => pass W environ { st with fs := fs1 }

/-! ## The matcher on `envrgx` -/

theorem run_cls_cons (items : List ClassItem) (pos : Nat) (c : Char) (cs : Str)
    (caps : List (Nat × Str)) :
    run (.cls items) ⟨pos, c :: cs, caps⟩ =
      if inClass items c then [⟨pos + 1, cs, caps⟩] else [] := by
  simp [run]

theorem plusRun_cls_flatMap (items : List ClassItem) (f : MState → List MState)
    (hf : ∀ pos c t caps, inClass items c = true → f ⟨pos, c :: t, caps⟩ = []) :
    ∀ (n : Nat) (rest : Str) (pos : Nat) (caps : List (Nat × Str)), rest.length < n →
      (plusRun (run (.cls items)) n ⟨pos, rest, caps⟩).flatMap f =
        if rest.takeWhile (inClass items) = [] then []
        else f ⟨pos + (rest.takeWhile (inClass items)).length,
          rest.dropWhile (inClass items), caps⟩ := by
  intro n
  induction n with
  | zero => intro rest pos caps h; simp at h
  | succ n ih =>
    intro rest pos caps h
    cases rest with
    | nil => simp [plusRun, run]
    | cons c cs =>
      by_cases hc : inClass items c = true
      · have hlen : cs.length < n := by simpa using h
        have := ih cs (pos + 1) caps hlen
        simp only [plusRun, run_cls_cons, hc, if_true, List.flatMap_cons, List.flatMap_nil,
          List.append_nil, List.length_cons, Nat.lt_succ_self, List.flatMap_append, this,
          List.takeWhile_cons, List.dropWhile_cons]
        cases hw : cs.takeWhile (inClass items) with
        | nil =>
          have hd : cs.dropWhile (inClass items) = cs := by
            have := List.takeWhile_append_dropWhile (inClass items) cs
            rw [hw] at this; simpa using this
          simp [hd]
        | cons x xs =>
          have hcs : ∃ t, cs = x :: t ∧ inClass items x = true := by
            cases cs with
            | nil => simp at hw
            | cons y ys =>
              by_cases hy : inClass items y = true
              · simp [List.takeWhile_cons, hy] at hw
                exact ⟨ys, by rw [hw.1], hw.1 ▸ hy⟩
              · simp [List.takeWhile_cons, hy] at hw
          obtain ⟨t, rfl, hx⟩ := hcs
          simp [hf _ _ _ _ hx]
          have e : pos + 1 + (xs.length + 1) = pos + (xs.length + 1 + 1) := by omega
          rw [e]
      · simp [plusRun, run_cls_cons, hc, List.takeWhile_cons]

theorem run_lit_cons (d : Char) (pos : Nat) (c : Char) (cs : Str) (caps : List (Nat × Str)) :
    run (.lit d) ⟨pos, c :: cs, caps⟩ = if c = d then [⟨pos + 1, cs, caps⟩] else [] := by
  simp [run]

theorem takeWhile_length_le (p : Char → Bool) (l : Str) : (l.takeWhile p).length ≤ l.length := by
  induction l with
  | nil => simp
  | cons a l ih => by_cases h : p a = true <;> simp [List.takeWhile_cons, h]; omega

theorem dropWhile_length (p : Char → Bool) (l : Str) :
    (l.dropWhile p).length = l.length - (l.takeWhile p).length := by
  have h := congrArg List.length (List.takeWhile_append_dropWhile p l)
  rw [List.length_append] at h
  omega

theorem take_takeWhile_length (p : Char → Bool) (l : Str) :
    l.take (l.takeWhile p).length = l.takeWhile p := by
  induction l with
  | nil => simp
  | cons a l ih => by_cases h : p a = true <;> simp [List.takeWhile_cons, h, ih]

/-- A captured, greedy run of a class that does not hold the comma, followed by
a comma: the group is the longest run of class characters, which must be
non-empty and end right before a comma. -/
theorem run_capPlus_comma (items : List ClassItem) (hcomma : inClass items ',' = false)
    (i : Nat) (R : Regex) (pos : Nat) (rest : Str) (caps : List (Nat × Str)) :
    run (.cat (.cap i (.plus (.cls items))) (.cat (.lit ',') R)) ⟨pos, rest, caps⟩ =
      if rest.takeWhile (inClass items) = [] then []
      else
        match rest.dropWhile (inClass items) with
        | [] => []
        | c :: t =>
          if c = ',' then
            run R ⟨pos + (rest.takeWhile (inClass items)).length + 1, t,
              (i, rest.takeWhile (inClass items)) :: caps⟩
          else [] := by
  have key := plusRun_cls_flatMap items
    (fun s' => run (.cat (.lit ',') R)
      { s' with caps := (i, rest.take (rest.length - s'.rest.length)) :: s'.caps })
    (by
      intro pos c t caps hc
      have hne : c ≠ ',' := by
        intro h; rw [h] at hc; rw [hcomma] at hc; exact Bool.noConfusion hc
      simp [run, hne])
    (rest.length + 1) rest pos caps (Nat.lt_succ_self _)
  simp only [run, List.flatMap_map] at key ⊢
  rw [key]
  by_cases hw : rest.takeWhile (inClass items) = []
  · simp [hw]
  · simp only [hw, if_false]
    have hl := takeWhile_length_le (inClass items) rest
    have e : rest.length - (rest.dropWhile (inClass items)).length
        = (rest.takeWhile (inClass items)).length := by
      rw [dropWhile_length]; omega
    rw [e, take_takeWhile_length]
    cases hd : rest.dropWhile (inClass items) with
    | nil => simp
    | cons c t =>
      by_cases hc : c = ','
      · simp [hc]
      · simp [hc]

/-- The tail of `envrgx`: a captured group of exactly four digits, then the
end of the text. -/
theorem run_digits_end (i : Nat) (pos : Nat) (rest : Str) (caps : List (Nat × Str)) :
    run (.cat (.cap i (.rep 4 (.cls [.digit]))) .endText) ⟨pos, rest, caps⟩ =
      if rest.length = 4 ∧ rest.all isDigit = true then [⟨pos + 4, [], (i, rest) :: caps⟩]
      else [] := by
  have hd : ∀ c, inClass [ClassItem.digit] c = isDigit c := by
    intro c; simp [inClass, ClassItem.test]
  rcases rest with _ | ⟨a, _ | ⟨b, _ | ⟨c, _ | ⟨d, _ | ⟨e, r⟩⟩⟩⟩⟩
  · simp [run, repRun]
  · by_cases ha : isDigit a = true <;> simp [run, repRun, hd, ha]
  · by_cases ha : isDigit a = true <;> by_cases hb : isDigit b = true <;>
      simp [run, repRun, hd, ha, hb]
  · by_cases ha : isDigit a = true <;> by_cases hb : isDigit b = true <;>
      by_cases hc : isDigit c = true <;> simp [run, repRun, hd, ha, hb, hc]
  · by_cases ha : isDigit a = true <;> by_cases hb : isDigit b = true <;>
      by_cases hc : isDigit c = true <;> by_cases hdd : isDigit d = true <;>
      simp [run, repRun, hd, ha, hb, hc, hdd]
  · by_cases ha : isDigit a = true <;> by_cases hb : isDigit b = true <;>
      by_cases hc : isDigit c = true <;> by_cases hdd : isDigit d = true <;>
      simp [run, repRun, hd, ha, hb, hc, hdd]

theorem run_cat (a b : Regex) (s : MState) : run (.cat a b) s = (run a s).flatMap (run b) := by
  rw [run]

theorem run_beginText_zero (rest : Str) (caps : List (Nat × Str)) :
    run .beginText ⟨0, rest, caps⟩ = [⟨0, rest, caps⟩] := by
  simp [run]

theorem keyClass_comma : inClass keyClass ',' = false := by decide

theorem fileClass_comma : inClass fileClass ',' = false := by decide

/-- The matcher on `envrgx`, started at the beginning of a text, finds what
the scan `envFields` finds, and nothing else. -/
theorem run_envrgx (v : Str) :
    run envrgx ⟨0, v, []⟩ =
      match envFields v with
      | some (k, f, d) => [⟨0 + k.length + 1 + f.length + 1 + 4, [], [(3, d), (2, f), (1, k)]⟩]
      | none => [] := by
  have h1 := run_capPlus_comma keyClass keyClass_comma 1
  have h2 := run_capPlus_comma fileClass fileClass_comma 2
  have h3 := run_digits_end 3
  unfold envrgx envFields
  rw [run_cat, run_beginText_zero]
  simp only [List.flatMap_cons, List.flatMap_nil, List.append_nil]
  rw [h1]
  cases hdk : v.dropWhile (inClass keyClass) with
  | nil => simp
  | cons c t =>
    cases hdf : t.dropWhile (inClass fileClass) with
    | nil =>
      by_cases hk : v.takeWhile (inClass keyClass) = [] <;> by_cases hc : c = ',' <;>
        simp [hk, hc, h2, hdf]
    | cons c2 d =>
      by_cases hk : v.takeWhile (inClass keyClass) = [] <;> by_cases hc : c = ',' <;>
        by_cases hf : t.takeWhile (inClass fileClass) = [] <;> by_cases hc2 : c2 = ',' <;>
        by_cases hl : d.length = 4 <;> by_cases hd : ∀ x ∈ d, isDigit x = true <;>
        simp [hk, hc, hf, hc2, hl, h2, h3, hdf] <;>
        first | rw [if_pos hd, if_pos hd] | rw [if_neg hd, if_neg hd]

theorem run_envrgx_pos (pos : Nat) (rest : Str) (h : pos ≠ 0) :
    run envrgx ⟨pos, rest, []⟩ = [] := by
  unfold envrgx
  rw [run_cat]
  simp [run, h]

theorem findFrom_envrgx_pos (n : Nat) (rest : Str) :
    ∀ pos, pos ≠ 0 → findFrom envrgx n pos rest = [] := by
  induction rest with
  | nil => intro pos h; simp [findFrom, run_envrgx_pos pos [] h]
  | cons c cs ih =>
    intro pos h
    simp [findFrom, run_envrgx_pos pos _ h]
    exact ih (pos + 1) (by omega)

/-- What `envrgx.FindStringSubmatch` returns: the whole value and its three
fields when the scan finds them, and `nil` otherwise. -/
theorem FindStringSubmatch_envrgx (v : Str) :
    FindStringSubmatch envrgx v =
      match envFields v with
      | some (k, f, d) => [v, k, f, d]
      | none => [] := by
  unfold FindStringSubmatch
  have hr := run_envrgx v
  cases h : envFields v with
  | none =>
    rw [h] at hr
    cases v with
    | nil => simp [findFrom, hr]
    | cons c cs => simp [findFrom, hr]; exact findFrom_envrgx_pos _ cs 1 (by omega)
  | some x =>
    obtain ⟨k, f, d⟩ := x
    rw [h] at hr
    have hn : envrgx.numCap = 3 := by decide
    cases v with
    | nil => simp [findFrom, hr, submatches, group, hn, List.range_succ, List.lookup]
    | cons c cs => simp [findFrom, hr, submatches, group, hn, List.range_succ, List.lookup]

theorem takeWhile_append_stop (p : Char → Bool) (k : Str) (x : Char) (r : Str)
    (hk : ∀ c ∈ k, p c = true) (hx : p x = false) :
    (k ++ x :: r).takeWhile p = k ∧ (k ++ x :: r).dropWhile p = x :: r := by
  induction k with
  | nil => simp [List.takeWhile_cons, List.dropWhile_cons, hx]
  | cons a k ih =>
    have ha : p a = true := hk a (List.mem_cons_self _ _)
    have := ih (fun c hc => hk c (List.mem_cons_of_mem _ hc))
    simp [List.takeWhile_cons, List.dropWhile_cons, ha, this]

theorem mem_takeWhile_true (p : Char → Bool) (l : Str) : ∀ c ∈ l.takeWhile p, p c = true := by
  induction l with
  | nil => simp
  | cons a l ih =>
    by_cases ha : p a = true
    · intro c hc
      simp [List.takeWhile_cons, ha] at hc
      rcases hc with rfl | hc
      · exact ha
      · exact ih c hc
    · simp [List.takeWhile_cons, ha]

/-- A value `key,file,mode` with well-formed fields is scanned into its three
fields. -/
theorem envFields_of_fields (k f d : Str)
    (hk : k ≠ []) (hkc : ∀ c ∈ k, inClass keyClass c = true)
    (hf : f ≠ []) (hfc : ∀ c ∈ f, inClass fileClass c = true)
    (hd : d.length = 4) (hdc : ∀ c ∈ d, isDigit c = true) :
    envFields (k ++ ',' :: (f ++ ',' :: d)) = some (k, f, d) := by
  obtain ⟨t1, d1⟩ := takeWhile_append_stop (inClass keyClass) k ',' (f ++ ',' :: d) hkc
    keyClass_comma
  obtain ⟨t2, d2⟩ := takeWhile_append_stop (inClass fileClass) f ',' d hfc fileClass_comma
  unfold envFields
  rw [d1]
  simp only [d2, t1, t2]
  simp [hk, hf, hd]
  exact hdc

/-- Whatever the scan returns is a decomposition of the value into
well-formed fields. -/
theorem envFields_some (v k f d : Str) (h : envFields v = some (k, f, d)) :
    v = k ++ ',' :: (f ++ ',' :: d) ∧
      k ≠ [] ∧ (∀ c ∈ k, inClass keyClass c = true) ∧
      f ≠ [] ∧ (∀ c ∈ f, inClass fileClass c = true) ∧
      d.length = 4 ∧ (∀ c ∈ d, isDigit c = true) := by
  unfold envFields at h
  cases hdk : v.dropWhile (inClass keyClass) with
  | nil => rw [hdk] at h; simp at h
  | cons c t =>
    rw [hdk] at h
    cases hdf : t.dropWhile (inClass fileClass) with
    | nil => simp [hdf] at h
    | cons c2 d2 =>
      simp only [hdf] at h
      split at h
      · rename_i hc
        obtain ⟨hc1, hc2, hk, hf, hl, hdig⟩ := hc
        simp only [Option.some.injEq, Prod.mk.injEq] at h
        obtain ⟨rfl, rfl, rfl⟩ := h
        have e1 := List.takeWhile_append_dropWhile (inClass keyClass) v
        have e2 := List.takeWhile_append_dropWhile (inClass fileClass) t
        rw [hdk] at e1
        rw [hdf] at e2
        subst hc1 hc2
        refine ⟨?_, hk, mem_takeWhile_true _ _, hf, mem_takeWhile_true _ _, hl, ?_⟩
        · rw [e2]; exact e1.symm
        · simpa using hdig
      · simp at h

/-! ## `SplitN` and `ParseUint` -/

theorem sep_eq : "=".toList = ['='] := rfl

theorem SplitN_two (e : Str) :
    SplitN e ['='] 2 =
      match Cut ['='] e with
      | none => [e]
      | some (a, b) => [a, b] := by
  rw [SplitN]
  cases Cut ['='] e with
  | none => rfl
  | some p => obtain ⟨a, b⟩ := p; simp [SplitN]

theorem Cut_eq_of_not_mem (name value : Str) (h : '=' ∉ name) :
    Cut ['='] (name ++ '=' :: value) = some (name, value) := by
  induction name with
  | nil => simp [Cut]
  | cons a name ih =>
    have ha : a ≠ '=' := fun e => h (e ▸ List.mem_cons_self _ _)
    have := ih (fun hm => h (List.mem_cons_of_mem _ hm))
    simp [Cut, Ne.symm ha, this]

theorem Cut_none_of_not_mem (e : Str) (h : '=' ∉ e) : Cut ['='] e = none := by
  induction e with
  | nil => simp [Cut]
  | cons a e ih =>
    have ha : a ≠ '=' := fun x => h (x ▸ List.mem_cons_self _ _)
    have := ih (fun hm => h (List.mem_cons_of_mem _ hm))
    simp [Cut, Ne.symm ha, this]

theorem entryName_eq (name value : Str) (h : '=' ∉ name) :
    entryName (name ++ '=' :: value) = name := by
  simp [entryName, sep_eq, SplitN_two, Cut_eq_of_not_mem name value h]

theorem entryValue_eq (name value : Str) (h : '=' ∉ name) :
    entryValue (name ++ '=' :: value) = some value := by
  simp [entryValue, sep_eq, SplitN_two, Cut_eq_of_not_mem name value h]

theorem entryName_bare (e : Str) (h : '=' ∉ e) : entryName e = e := by
  simp [entryName, sep_eq, SplitN_two, Cut_none_of_not_mem e h]

theorem entryValue_bare (e : Str) (h : '=' ∉ e) : entryValue e = none := by
  simp [entryValue, sep_eq, SplitN_two, Cut_none_of_not_mem e h]

theorem SplitN_two_zero (e : Str) : (SplitN e ['='] 2)[0]? = some (entryName e) := by
  unfold entryName
  rw [sep_eq, SplitN_two]
  cases Cut ['='] e with
  | none => rfl
  | some p => rfl

theorem parseLoop_octal_step (c : Char) (cs : Str) (n : Nat) (hc : isOctDigit c = true)
    (hn : n < 2 ^ 29) :
    parseLoop 8 (maxUint64 / 8 + 1) (2 ^ 32 - 1) (c :: cs) n =
      parseLoop 8 (maxUint64 / 8 + 1) (2 ^ 32 - 1) cs (8 * n + (c.toNat - 48)) := by
  have h : 48 ≤ c.toNat ∧ c.toNat ≤ 55 := by simpa [isOctDigit] using hc
  have hdv : digitVal c = some (c.toNat - 48) := by
    unfold digitVal
    rw [if_pos ⟨h.1, by omega⟩]
  rw [parseLoop, hdv]
  have hcut : maxUint64 / 8 + 1 = 2305843009213693952 := by decide
  simp only [hcut]
  norm_num at hn ⊢
  have e0 : n * 8 % 18446744073709551616 = n * 8 := Nat.mod_eq_of_lt (by omega)
  have e1 : (n * 8 + (c.toNat - 48)) % 18446744073709551616 = n * 8 + (c.toNat - 48) :=
    Nat.mod_eq_of_lt (by omega)
  rw [e0, e1]
  rw [if_neg (by omega), if_neg (by omega), if_neg (by omega)]
  congr 1
  omega

/-- `ParseUint` on four octal digits gives their base-8 value and no error. -/
theorem ParseUint_octal4 (d : Str) (hl : d.length = 4) (hd : ∀ c ∈ d, isOctDigit c = true) :
    ParseUint d 8 32 = (octalValue d, none) := by
  rcases d with _ | ⟨a, _ | ⟨b, _ | ⟨c, _ | ⟨e, _ | ⟨x, r⟩⟩⟩⟩⟩ <;> simp at hl
  have ha := hd a (by simp)
  have hb := hd b (by simp)
  have hc := hd c (by simp)
  have he := hd e (by simp)
  have ha' : 48 ≤ a.toNat ∧ a.toNat ≤ 55 := by simpa [isOctDigit] using ha
  have hb' : 48 ≤ b.toNat ∧ b.toNat ≤ 55 := by simpa [isOctDigit] using hb
  have hc' : 48 ≤ c.toNat ∧ c.toNat ≤ 55 := by simpa [isOctDigit] using hc
  have he' : 48 ≤ e.toNat ∧ e.toNat ≤ 55 := by simpa [isOctDigit] using he
  unfold ParseUint
  rw [if_neg (by simp), if_neg (by simp), if_neg (by simp)]
  simp only [show (32 : Nat) ≠ 0 by decide, if_false]
  rw [parseLoop_octal_step a _ 0 ha (by norm_num),
    parseLoop_octal_step b _ _ hb (by norm_num; omega),
    parseLoop_octal_step c _ _ hc (by norm_num; omega),
    parseLoop_octal_step e _ _ he (by norm_num; omega)]
  simp only [parseLoop, octalValue, List.reverse_cons, List.reverse_nil, List.nil_append,
    List.cons_append, List.map_cons, List.map_nil, Nat.ofDigits_cons, Nat.ofDigits_nil]
  congr 1
  push_cast
  omega

theorem octalValue_lt (d : Str) (hl : d.length = 4) (hd : ∀ c ∈ d, isOctDigit c = true) :
    octalValue d < 4096 := by
  rcases d with _ | ⟨a, _ | ⟨b, _ | ⟨c, _ | ⟨e, _ | ⟨x, r⟩⟩⟩⟩⟩ <;> simp at hl
  have ha' : 48 ≤ a.toNat ∧ a.toNat ≤ 55 := by simpa [isOctDigit] using hd a (by simp)
  have hb' : 48 ≤ b.toNat ∧ b.toNat ≤ 55 := by simpa [isOctDigit] using hd b (by simp)
  have hc' : 48 ≤ c.toNat ∧ c.toNat ≤ 55 := by simpa [isOctDigit] using hd c (by simp)
  have he' : 48 ≤ e.toNat ∧ e.toNat ≤ 55 := by simpa [isOctDigit] using hd e (by simp)
  simp only [octalValue, List.reverse_cons, List.reverse_nil, List.nil_append,
    List.cons_append, List.map_cons, List.map_nil, Nat.ofDigits_cons, Nat.ofDigits_nil]
  push_cast
  omega

/-! ## `fromEnv`, entry by entry -/

/-- An entry whose name does not start with the prefix is skipped. -/
theorem fromEnvLoop_skip_name (pfx e : Str) (es : List Str) (attrs : List Attribute)
    (log : List Log) (h : HasPrefix (entryName e) pfx = false) :
    fromEnvLoop pfx (e :: es) attrs log = fromEnvLoop pfx es attrs log := by
  rw [fromEnvLoop]
  simp only [sep_eq, SplitN_two_zero, h, Bool.not_false, if_true]

/-- An entry with the prefix and no `=` makes `fromEnv` panic. -/
theorem fromEnvLoop_panic (pfx e : Str) (es : List Str) (attrs : List Attribute)
    (log : List Log) (h : HasPrefix (entryName e) pfx = true) (hv : entryValue e = none) :
    fromEnvLoop pfx (e :: es) attrs log = none := by
  rw [fromEnvLoop]
  unfold entryValue at hv
  rw [sep_eq] at hv
  simp only [sep_eq, SplitN_two_zero, h, hv, Bool.not_true]
  simp

/-- An entry with the prefix whose value `envrgx` does not match is skipped. -/
theorem fromEnvLoop_skip_value (pfx e v : Str) (es : List Str) (attrs : List Attribute)
    (log : List Log) (h : HasPrefix (entryName e) pfx = true) (hv : entryValue e = some v)
    (hm : FindStringSubmatch envrgx v = []) :
    fromEnvLoop pfx (e :: es) attrs log = fromEnvLoop pfx es attrs log := by
  rw [fromEnvLoop]
  unfold entryValue at hv
  rw [sep_eq] at hv
  simp only [sep_eq, SplitN_two_zero, h, hv, Bool.not_true, hm]
  simp

/-- An entry with the prefix whose value `envrgx` matches is appended, with
whatever value `ParseUint` returned, and an error is logged if it failed. -/
theorem fromEnvLoop_match (pfx e v k f d : Str) (es : List Str) (attrs : List Attribute)
    (log : List Log) (h : HasPrefix (entryName e) pfx = true) (hv : entryValue e = some v)
    (hm : envFields v = some (k, f, d)) :
    fromEnvLoop pfx (e :: es) attrs log =
      fromEnvLoop pfx es (attrs ++ [⟨k, f, uint (ParseUint d 8 32).1⟩])
        (match (ParseUint d 8 32).2 with
          | some err => log ++ [Log.errParseMode e err]
          | none => log) := by
  have hf : FindStringSubmatch envrgx v = [v, k, f, d] := by
    rw [FindStringSubmatch_envrgx, hm]
  rw [fromEnvLoop]
  unfold entryValue at hv
  rw [sep_eq] at hv
  simp only [sep_eq, SplitN_two_zero, h, hv, Bool.not_true, hf]
  simp

/-- Every entry either makes the loop panic, or adds fixed attributes and log
lines and goes on. -/
theorem fromEnvLoop_entry (pfx e : Str) :
    (∀ es attrs log, fromEnvLoop pfx (e :: es) attrs log = none) ∨
      ∃ da dl, ∀ es attrs log,
        fromEnvLoop pfx (e :: es) attrs log = fromEnvLoop pfx es (attrs ++ da) (log ++ dl) := by
  by_cases h : HasPrefix (entryName e) pfx = true
  · cases hv : entryValue e with
    | none => exact Or.inl (fun es attrs log => fromEnvLoop_panic pfx e es attrs log h hv)
    | some v =>
      right
      cases hm : envFields v with
      | none =>
        refine ⟨[], [], fun es attrs log => ?_⟩
        have : FindStringSubmatch envrgx v = [] := by rw [FindStringSubmatch_envrgx, hm]
        simpa using fromEnvLoop_skip_value pfx e v es attrs log h hv this
      | some x =>
        obtain ⟨k, f, d⟩ := x
        cases hp : (ParseUint d 8 32).2 with
        | none =>
          refine ⟨[⟨k, f, uint (ParseUint d 8 32).1⟩], [], fun es attrs log => ?_⟩
          rw [fromEnvLoop_match pfx e v k f d es attrs log h hv hm, hp]
          simp
        | some err =>
          refine ⟨[⟨k, f, uint (ParseUint d 8 32).1⟩], [Log.errParseMode e err],
            fun es attrs log => ?_⟩
          rw [fromEnvLoop_match pfx e v k f d es attrs log h hv hm, hp]
  · right
    refine ⟨[], [], fun es attrs log => ?_⟩
    simpa using fromEnvLoop_skip_name pfx e es attrs log (by simpa using h)

/-- The loop over a concatenation is the loop over the first part, continued
over the second. -/
theorem fromEnvLoop_append (pfx : Str) (l1 l2 : List Str) :
    ∀ attrs log, fromEnvLoop pfx (l1 ++ l2) attrs log =
      match fromEnvLoop pfx l1 attrs log with
      | none => none
      | some r => fromEnvLoop pfx l2 r.1 r.2 := by
  induction l1 with
  | nil => intro attrs log; simp [fromEnvLoop]
  | cons e es ih =>
    intro attrs log
    rcases fromEnvLoop_entry pfx e with hp | ⟨da, dl, hs⟩
    · rw [List.cons_append, hp, hp]
    · rw [List.cons_append, hs, hs, ih]

/-- The accumulators of the loop are only appended to. -/
theorem fromEnvLoop_acc (pfx : Str) (l : List Str) :
    ∀ attrs log, fromEnvLoop pfx l attrs log =
      (fromEnvLoop pfx l [] []).map (fun r => (attrs ++ r.1, log ++ r.2)) := by
  induction l with
  | nil => intro attrs log; simp [fromEnvLoop]
  | cons e es ih =>
    intro attrs log
    rcases fromEnvLoop_entry pfx e with hp | ⟨da, dl, hs⟩
    · rw [hp, hp]; rfl
    · rw [hs, hs, ih, ih ([] ++ da) ([] ++ dl)]
      cases fromEnvLoop pfx es [] [] with
      | none => rfl
      | some r => simp [List.append_assoc]

/-! ## The claims about `fromEnv` and the tables -/

theorem inClass_keyClass (c : Char) :
    inClass keyClass c = (isWord c || decide (c = '-') || decide (c = '_') || decide (c = '/')) := by
  simp [inClass, keyClass, ClassItem.test, Bool.or_assoc]

theorem inClass_fileClass (c : Char) :
    inClass fileClass c = (isWord c || decide (c = '-') || decide (c = '_') || decide (c = '/') ||
      decide (c = '.')) := by
  simp [inClass, fileClass, ClassItem.test, Bool.or_assoc]

theorem isDigit_of_isOctDigit (c : Char) (h : isOctDigit c = true) : isDigit c = true := by
  simp only [isOctDigit, isDigit, decide_eq_true_eq] at h ⊢
  omega

/-- C1, evaluated on the code: for the entry `GCP_X=k,f,0899`, whose mode
group matches `[\d]{4}` and is no base-8 number, `fromEnv("GCP_")` logs the
parse error and still appends the attribute, with mode 0; the entry is not
omitted. -/
theorem fromEnv_keeps_unparsable_mode :
    fromEnv "GCP_".toList ["GCP_X=k,f,0899".toList] =
      some ([⟨"k".toList, "f".toList, 0⟩],
        [Log.errParseMode "GCP_X=k,f,0899".toList NumError.ErrSyntax]) := by
  decide

/-- C9, evaluated on the code: on the environment holding the bare entry
`GCP_X` (no `=`), `fromEnv("GCP_")` indexes `kv[1]` out of range and panics. -/
theorem fromEnv_bare_entry_panics :
    SplitN "GCP_X".toList "=".toList 2 = ["GCP_X".toList] ∧
      fromEnv "GCP_".toList ["GCP_X".toList] = none := by
  decide

/-- C10, evaluated on the code: the keys and the files of `gcpAttributes` are
pairwise distinct, but `awsAttributes` holds the entry
`public-ipv4 -> public_ipv4` twice, at the positions 2 and 3, so neither its
keys nor its files are pairwise distinct. -/
theorem awsAttributes_has_duplicate :
    (gcpAttributes.map Attribute.key).Nodup ∧ (gcpAttributes.map Attribute.file).Nodup ∧
      awsAttributes[2]? = awsAttributes[3]? ∧
      ¬ (awsAttributes.map Attribute.key).Nodup ∧ ¬ (awsAttributes.map Attribute.file).Nodup := by
  decide

/-- C6: for every prefix and every entry `NAME=key,file,mode` whose name
starts with the prefix, whose key is a non-empty string over word characters,
`-`, `_` and `/`, whose file is a non-empty string over those characters and
`.`, and whose mode is exactly four octal digits, `fromEnv` returns for that
entry the attribute with that key, that file and the base-8 value of the
digits as mode, in its place between the attributes of the entries before and
after it, and logs nothing for it. -/
theorem fromEnv_wellformed_entry (pfx name key file mode : Str) (l1 l2 : List Str)
    (a1 a2 : List Attribute) (g1 g2 : List Log)
    (hname : '=' ∉ name) (hpfx : HasPrefix name pfx = true)
    (hkey : key ≠ [])
    (hkeyc : ∀ c ∈ key, isWord c = true ∨ c = '-' ∨ c = '_' ∨ c = '/')
    (hfile : file ≠ [])
    (hfilec : ∀ c ∈ file, isWord c = true ∨ c = '-' ∨ c = '_' ∨ c = '/' ∨ c = '.')
    (hmode : mode.length = 4) (hmodec : ∀ c ∈ mode, isOctDigit c = true)
    (h1 : fromEnv pfx l1 = some (a1, g1)) (h2 : fromEnv pfx l2 = some (a2, g2)) :
    fromEnv pfx (l1 ++ (name ++ '=' :: (key ++ ',' :: (file ++ ',' :: mode))) :: l2) =
      some (a1 ++ ⟨key, file, octalValue mode⟩ :: a2, g1 ++ g2) := by
  have hk : ∀ c ∈ key, inClass keyClass c = true := by
    intro c hc
    rw [inClass_keyClass]
    rcases hkeyc c hc with h | h | h | h <;> simp [h]
  have hf : ∀ c ∈ file, inClass fileClass c = true := by
    intro c hc
    rw [inClass_fileClass]
    rcases hfilec c hc with h | h | h | h | h <;> simp [h]
  have hm := envFields_of_fields key file mode hkey hk hfile hf hmode
    (fun c hc => isDigit_of_isOctDigit c (hmodec c hc))
  have hp := ParseUint_octal4 mode hmode hmodec
  have hlt := octalValue_lt mode hmode hmodec
  unfold fromEnv at h1 h2 ⊢
  rw [fromEnvLoop_append, h1]
  simp only
  rw [fromEnvLoop_match pfx _ _ key file mode l2 a1 g1
    (by rw [entryName_eq name _ hname]; exact hpfx) (entryValue_eq name _ hname) hm]
  rw [hp]
  simp only
  rw [fromEnvLoop_acc, h2]
  have hu : uint (octalValue mode) = octalValue mode := by
    unfold uint
    exact Nat.mod_eq_of_lt (by omega)
  simp [hu]

/-- C6 at the entry of the specification: `GCP_FOO=attributes/custom,custom/path,0640`
with the prefix `GCP_` gives the attribute (`attributes/custom`, `custom/path`,
0640 octal = 416). -/
theorem fromEnv_wellformed_entry_witness :
    octalValue "0640".toList = 416 ∧
      fromEnv "GCP_".toList
          ([] ++ ("GCP_FOO".toList ++ '=' ::
            ("attributes/custom".toList ++ ',' :: ("custom/path".toList ++ ',' :: "0640".toList)))
            :: []) =
        some ([] ++ ⟨"attributes/custom".toList, "custom/path".toList, octalValue "0640".toList⟩
          :: [], [] ++ []) :=
  ⟨by decide,
    fromEnv_wellformed_entry "GCP_".toList "GCP_FOO".toList "attributes/custom".toList
      "custom/path".toList "0640".toList [] [] [] [] [] []
      (by decide) (by decide) (by decide) (by decide) (by decide) (by decide) (by decide)
      (by decide) (by decide) (by decide)⟩

/-- C7: for every prefix `P` and every environment list, an entry whose name
does not start with `P`, and an entry whose name starts with `P` but whose
value `envrgx` does not match, contributes nothing: `fromEnv(P)` on the list
equals `fromEnv(P)` on the list with that entry removed. -/
theorem fromEnv_skips_entry (pfx e : Str) (l1 l2 : List Str)
    (h : HasPrefix (entryName e) pfx = false ∨
      ∃ v, entryValue e = some v ∧ FindStringSubmatch envrgx v = []) :
    fromEnv pfx (l1 ++ e :: l2) = fromEnv pfx (l1 ++ l2) := by
  unfold fromEnv
  rw [fromEnvLoop_append, fromEnvLoop_append]
  cases fromEnvLoop pfx l1 [] [] with
  | none => rfl
  | some r =>
    simp only
    rcases h with h | ⟨v, hv, hm⟩
    · exact fromEnvLoop_skip_name pfx e l2 r.1 r.2 h
    · by_cases hp : HasPrefix (entryName e) pfx = true
      · exact fromEnvLoop_skip_value pfx e v l2 r.1 r.2 hp hv hm
      · exact fromEnvLoop_skip_name pfx e l2 r.1 r.2 (by simpa using hp)

/-- C7 at concrete entries: `GCP_BAD=not-a-triple` (prefix, malformed value)
and `HOME=/root` (no prefix) add nothing next to a well-formed entry. -/
theorem fromEnv_skips_entry_witness :
    (∃ v, entryValue "GCP_BAD=not-a-triple".toList = some v ∧
        FindStringSubmatch envrgx v = []) ∧
      fromEnv "GCP_".toList
          (["GCP_FOO=attributes/custom,custom/path,0640".toList] ++
            "GCP_BAD=not-a-triple".toList :: ["HOME=/root".toList]) =
        fromEnv "GCP_".toList
          (["GCP_FOO=attributes/custom,custom/path,0640".toList] ++ ["HOME=/root".toList]) ∧
      HasPrefix (entryName "HOME=/root".toList) "GCP_".toList = false ∧
      fromEnv "GCP_".toList
          (["GCP_FOO=attributes/custom,custom/path,0640".toList] ++ "HOME=/root".toList :: []) =
        fromEnv "GCP_".toList (["GCP_FOO=attributes/custom,custom/path,0640".toList] ++ []) :=
  ⟨⟨"not-a-triple".toList, by decide, by decide⟩,
    fromEnv_skips_entry _ _ _ _ (Or.inr ⟨"not-a-triple".toList, by decide, by decide⟩),
    by decide,
    fromEnv_skips_entry _ _ _ _ (Or.inl (by decide))⟩

/-! ## `get`: requests and the file system -/

theorem print_requests (st : State) (l : Log) : (st.print l).requests = st.requests := rfl

theorem print_fs (st : State) (l : Log) : (st.print l).fs = st.fs := rfl

/-- Whatever the outcome, a call of `get` whose request can be created sends
exactly one request, for `url + key`. -/
theorem get_requests (W : World) (url key file : Str) (mode : Nat) (headers : List header)
    (st : State) (hnew : W.NewRequest (url ++ key) = true) :
    (get W url key file mode headers st).requests =
      st.requests ++ [newRequest (url ++ key) headers] := by
  unfold get
  simp only [hnew, Bool.not_true, Bool.false_eq_true, if_false]
  repeat' split
  all_goals rfl

theorem foldl_Set_URL (headers : List header) :
    ∀ r : Request, (headers.foldl (fun r h => r.Set h.name h.value) r).URL = r.URL := by
  induction headers with
  | nil => intro r; rfl
  | cons h hs ih => intro r; rw [List.foldl_cons, ih]; rfl

theorem newRequest_URL (u : Str) (headers : List header) : (newRequest u headers).URL = u := by
  unfold newRequest
  rw [foldl_Set_URL]

/-- C3: for every base URL, attribute, header list and state, if the response
to the request of `get` has a status code other than 200, then `get` creates
no directory and writes no file: the file system after `get` is the one before
it; `get` only records the request and logs the status, and the loop goes on
with the attributes after it. -/
theorem get_non200_writes_nothing (W : World) (url key file : Str) (mode : Nat)
    (headers : List header) (st : State) (resp : Response) (post : List Attribute)
    (hnew : W.NewRequest (url ++ key) = true)
    (hdo : W.Do st.requests.length (newRequest (url ++ key) headers) = some resp)
    (hstatus : resp.StatusCode ≠ 200) :
    (get W url key file mode headers st).fs = st.fs ∧
      get W url key file mode headers st =
        { fs := st.fs,
          requests := st.requests ++ [newRequest (url ++ key) headers],
          log := st.log ++ [Log.infRetrieving (url ++ key), Log.errStatus resp.StatusCode] } ∧
      (⟨key, file, mode⟩ :: post).foldl (fun s x => get W url x.key x.file x.mode headers s) st =
        post.foldl (fun s x => get W url x.key x.file x.mode headers s)
          (get W url key file mode headers st) := by
  have h : get W url key file mode headers st =
      { fs := st.fs,
        requests := st.requests ++ [newRequest (url ++ key) headers],
        log := st.log ++ [Log.infRetrieving (url ++ key), Log.errStatus resp.StatusCode] } := by
    unfold get
    simp only [hnew, Bool.not_true, Bool.false_eq_true, if_false, print_requests, hdo, hstatus,
      ne_eq, not_false_eq_true, if_true]
    simp [State.print]
  refine ⟨by rw [h], h, rfl⟩

/-- C3 at the 404 of the specification: the metadata service answers the
request for `hostname` with status 404; the tree, in which `hostname` already
exists, is left as it was. -/
theorem get_non200_writes_nothing_witness :
    sampleWorld.Do 0 (newRequest (gcpURL ++ "hostname".toList) gcpHeaders) = some ⟨404, some []⟩ ∧
      (get sampleWorld gcpURL "hostname".toList "hostname".toList 0o644 gcpHeaders
        ⟨configFS, [], []⟩).fs = configFS ∧
      (get sampleWorld gcpURL "hostname".toList "hostname".toList 0o644 gcpHeaders
        ⟨configFS, [], []⟩).log =
        [Log.infRetrieving (gcpURL ++ "hostname".toList), Log.errStatus 404] :=
  have h := get_non200_writes_nothing sampleWorld gcpURL "hostname".toList "hostname".toList
    0o644 gcpHeaders ⟨configFS, [], []⟩ ⟨404, some []⟩ [] rfl rfl (by decide)
  ⟨rfl, h.1, by rw [h.2.1]; rfl⟩

/-! ## `main`: the sequence of requests -/

theorem foldl_get_requests (W : World) (url : Str) (headers : List header)
    (pre : State → Attribute → State) (hpre : ∀ s x, (pre s x).requests = s.requests)
    (l : List Attribute) :
    ∀ st : State, (∀ x ∈ l, W.NewRequest (url ++ x.key) = true) →
      (l.foldl (fun s x => get W url x.key x.file x.mode headers (pre s x)) st).requests =
        st.requests ++ l.map (fun x => newRequest (url ++ x.key) headers) := by
  induction l with
  | nil => intro st _; simp
  | cons a l ih =>
    intro st h
    rw [List.foldl_cons, ih _ (fun x hx => h x (List.mem_cons_of_mem _ hx)),
      get_requests _ _ _ _ _ _ _ (h a (List.mem_cons_self _ _)), hpre]
    simp

/-- C8 fails on the code, for two environments and trees.  With the bare entry
`AWS_X` in the environment, `fromEnv("GCP_")` returns and `fromEnv("AWS_")`
panics: the run requests the four built-in GCP keys and then ends in a panic,
so that no key of the built-in AWS table is ever requested.  On a tree where
`/run` is a file, `main` cannot create `/run/config`: it exits with status 1
and requests nothing. -/
theorem main_requests_counterexample :
    fromEnv "GCP_".toList ["AWS_X".toList] = some ([], []) ∧
      fromEnv "AWS_".toList ["AWS_X".toList] = none ∧
      (main helloWorld ["AWS_X".toList] ⟨bootFS, [], []⟩).1 = Exit.panic ∧
      (main helloWorld ["AWS_X".toList] ⟨bootFS, [], []⟩).2.requests.map Request.URL =
        gcpAttributes.map (fun x => gcpURL ++ x.key) ∧
      (∀ x ∈ awsAttributes, awsURL ++ x.key ∉
        (main helloWorld ["AWS_X".toList] ⟨bootFS, [], []⟩).2.requests.map Request.URL) ∧
      fromEnv "GCP_".toList [] = some ([], []) ∧
      fromEnv "AWS_".toList [] = some ([], []) ∧
      (main helloWorld [] ⟨brokenFS, [], []⟩).1 = Exit.fatal ∧
      (main helloWorld [] ⟨brokenFS, [], []⟩).2.requests.map Request.URL = [] := by
  decide

/-- C8, amended: on an environment on which `fromEnv` returns for both
prefixes, and whatever the outcomes of the requests, of the directory
creations and of the writes, a run of `main` either fails in its set-up
(`/run/config` cannot be created or entered), exits with status 1 and
requests nothing, or requests exactly `gcpURL + key` for each attribute of the
built-in GCP table followed by `fromEnv("GCP_")`, then `awsURL + key` for each
attribute of the built-in AWS table followed by `fromEnv("AWS_")`, in this
order, and ends with status 0. -/
theorem main_requests_every_attribute (W : World) (environ : List Str) (st : State)
    (g a : List Attribute) (lg la : List Log)
    (hg : fromEnv "GCP_".toList environ = some (g, lg))
    (ha : fromEnv "AWS_".toList environ = some (a, la))
    (hnewG : ∀ x ∈ gcpAttributes ++ g, W.NewRequest (gcpURL ++ x.key) = true)
    (hnewA : ∀ x ∈ awsAttributes ++ a, W.NewRequest (awsURL ++ x.key) = true) :
    ((main W environ st).1 = Exit.fatal ∧ (main W environ st).2.requests = st.requests) ∨
      ((main W environ st).1 = Exit.done ∧
        (main W environ st).2.requests.map Request.URL =
          st.requests.map Request.URL ++
            (gcpAttributes ++ g).map (fun x => gcpURL ++ x.key) ++
            (awsAttributes ++ a).map (fun x => awsURL ++ x.key)) := by
  have hG := foldl_get_requests W gcpURL gcpHeaders
    (fun s x => s.print (.infGet "GCP".toList x.key x.file)) (fun _ _ => rfl) (gcpAttributes ++ g)
  have hA := foldl_get_requests W awsURL awsHeaders
    (fun s x => s.print (.infGet "AWS".toList x.key x.file)) (fun _ _ => rfl) (awsAttributes ++ a)
  unfold main
  simp only
  split
  · exact Or.inl ⟨rfl, rfl⟩
  · split
    · exact Or.inl ⟨rfl, rfl⟩
    · right
      unfold pass
      simp only [hg, ha]
      refine ⟨trivial, ?_⟩
      unfold gcpGet awsGet
      rw [hA _ hnewA, hG _ hnewG]
      simp [newRequest_URL, Function.comp_def]

/-- C8, amended, at the second scenario of the specification: the metadata
service answers the request for `hostname` with 404 and `GCP_FOO` is declared
in the environment; the set-up succeeds, the run still requests `name` next
(file `local_hostname`), then every other attribute, and ends with status 0. -/
theorem main_requests_every_attribute_witness :
    fromEnv "GCP_".toList ["GCP_FOO=attributes/custom,custom/path,0640".toList] =
        some ([⟨"attributes/custom".toList, "custom/path".toList, 0o640⟩], []) ∧
      fromEnv "AWS_".toList ["GCP_FOO=attributes/custom,custom/path,0640".toList] =
        some ([], []) ∧
      (main sampleWorld ["GCP_FOO=attributes/custom,custom/path,0640".toList] ⟨bootFS, [], []⟩).1 =
        Exit.done ∧
      (main sampleWorld ["GCP_FOO=attributes/custom,custom/path,0640".toList]
          ⟨bootFS, [], []⟩).2.requests.map Request.URL =
        ([] : List Request).map Request.URL ++
          (gcpAttributes ++ [Attribute.mk "attributes/custom".toList "custom/path".toList 0o640]).map
            (fun x : Attribute => gcpURL ++ x.key) ++
          (awsAttributes ++ []).map (fun x : Attribute => awsURL ++ x.key) ∧
      (main sampleWorld ["GCP_FOO=attributes/custom,custom/path,0640".toList]
          ⟨bootFS, [], []⟩).2.log.take 5 =
        [Log.infGet "GCP".toList "hostname".toList "hostname".toList,
          Log.infRetrieving (gcpURL ++ "hostname".toList),
          Log.errStatus 404,
          Log.infGet "GCP".toList "name".toList "local_hostname".toList,
          Log.infRetrieving (gcpURL ++ "name".toList)] :=
  (main_requests_every_attribute sampleWorld
    ["GCP_FOO=attributes/custom,custom/path,0640".toList] ⟨bootFS, [], []⟩
    [⟨"attributes/custom".toList, "custom/path".toList, 0o640⟩] [] [] []
    (by decide) (by decide) (fun _ _ => rfl) (fun _ _ => rfl)).elim
    (fun hf => absurd hf.1 (by decide))
    (fun hd => ⟨by decide, by decide, hd.1, hd.2, by decide⟩)

/-! ## The file system operations -/

theorem addsDirs_refl (fs : FS) : addsDirs fs fs := ⟨rfl, rfl, fun _ => Or.inl rfl⟩

theorem addsDirs_trans {a b c : FS} (h1 : addsDirs a b) (h2 : addsDirs b c) : addsDirs a c := by
  refine ⟨h2.1.trans h1.1, h2.2.1.trans h1.2.1, fun p => ?_⟩
  rcases h2.2.2 p with e2 | ⟨n2, m, e2⟩
  · rcases h1.2.2 p with e1 | ⟨n1, m1, e1⟩
    · exact Or.inl (e2.trans e1)
    · exact Or.inr ⟨n1, m1, e2.trans e1⟩
  · rcases h1.2.2 p with e1 | ⟨n1, m1, e1⟩
    · exact Or.inr ⟨e1 ▸ n2, m, e2⟩
    · rw [e1] at n2; exact Option.noConfusion n2

theorem set_dir_addsDirs (fs : FS) (q : Path) (m : Nat) (h : fs.node q = none) :
    addsDirs fs (fs.set q (.dir m)) := by
  refine ⟨rfl, rfl, fun p => ?_⟩
  by_cases hp : p = q
  · right
    subst hp
    exact ⟨h, m, by simp [FS.set]⟩
  · left
    simp [FS.set, hp]

theorem Mkdir_addsDirs (p : Str) (perm : Nat) (fs : FS) : addsDirs fs (Mkdir p perm fs).2 := by
  unfold Mkdir
  simp only
  cases locate fs (p.reverse.dropWhile (fun c => c == '/')).reverse with
  | none => exact addsDirs_refl fs
  | some x =>
    obtain ⟨d, last⟩ := x
    simp only
    split
    · exact addsDirs_refl fs
    · cases hn : fs.node (d ++ [last]) with
      | some _ => exact addsDirs_refl fs
      | none => exact set_dir_addsDirs fs _ _ hn

/-- `MkdirAll` only adds directories, whether it succeeds or fails. -/
theorem MkdirAll_addsDirs (n : Nat) :
    ∀ (p : Str) (perm : Nat) (fs : FS), addsDirs fs (MkdirAll n p perm fs).2 := by
  induction n with
  | zero => intro p perm fs; exact addsDirs_refl fs
  | succ n ih =>
    intro p perm fs
    rw [MkdirAll]
    cases Stat fs p with
    | some nd =>
      cases nd with
      | file _ _ => exact addsDirs_refl fs
      | dir _ => exact addsDirs_refl fs
    | none =>
      simp only
      have hup : addsDirs fs
          (if 1 < ((p.reverse.dropWhile (fun c => c == '/')).dropWhile (fun c => c != '/')).length
            then MkdirAll n
              (((p.reverse.dropWhile (fun c => c == '/')).dropWhile (fun c => c != '/')).drop
                1).reverse perm fs
            else (true, fs)).2 := by
        split
        · exact ih _ _ _
        · exact addsDirs_refl fs
      generalize (if 1 < ((p.reverse.dropWhile (fun c => c == '/')).dropWhile
          (fun c => c != '/')).length
            then MkdirAll n
              (((p.reverse.dropWhile (fun c => c == '/')).dropWhile (fun c => c != '/')).drop
                1).reverse perm fs
            else (true, fs)) = up at hup ⊢
      split
      · exact hup
      · split
        · exact addsDirs_trans hup (Mkdir_addsDirs _ _ _)
        · split <;> exact hup

/-- What a successful `WriteFile` did: the path names a place that is no
directory, and the file there now holds the data, with the mode of
`writtenMode`. -/
theorem WriteFile_ok (name : Str) (data : Bytes) (perm : Nat) (fs : FS)
    (h : (WriteFile name data perm fs).1 = true) :
    ∃ d last, locate fs name = some (d, last) ∧
      ¬ (last = [] ∨ last = ['.'] ∨ last = ['.', '.']) ∧
      (∀ m, fs.node (d ++ [last]) ≠ some (.dir m)) ∧
      (WriteFile name data perm fs).2 =
        fs.set (d ++ [last]) (.file (writtenMode fs (d ++ [last]) perm) data) := by
  unfold WriteFile at h ⊢
  cases hl : locate fs name with
  | none => rw [hl] at h; simp at h
  | some x =>
    obtain ⟨d, last⟩ := x
    rw [hl] at h
    simp only at h ⊢
    by_cases hs : last = [] ∨ last = ['.'] ∨ last = ['.', '.']
    · rw [if_pos hs] at h; simp at h
    · rw [if_neg hs] at h ⊢
      refine ⟨d, last, rfl, hs, ?_⟩
      cases hn : fs.node (d ++ [last]) with
      | none => simp [writtenMode, hn]
      | some nd =>
        cases nd with
        | dir m => rw [hn] at h; simp at h
        | file m old => simp [writtenMode, hn]

/-- Placing a file where there was no directory does not change how paths
resolve. -/
theorem walk_set_file (fs : FS) (q : Path) (m : Nat) (data : Bytes)
    (hq : ∀ m, fs.node q ≠ some (.dir m)) (es : List Str) :
    ∀ cur, walk (fs.set q (.file m data)) cur es = walk fs cur es := by
  induction es with
  | nil => intro cur; rfl
  | cons e es ih =>
    intro cur
    rw [walk, walk]
    by_cases h1 : e = [] ∨ e = ['.']
    · rw [if_pos h1, if_pos h1]; exact ih cur
    · rw [if_neg h1, if_neg h1]
      by_cases h2 : e = ['.', '.']
      · rw [if_pos h2, if_pos h2]; exact ih _
      · rw [if_neg h2, if_neg h2]
        by_cases hp : cur ++ [e] = q
        · have hnew : (fs.set q (.file m data)).node (cur ++ [e]) = some (.file m data) := by
            simp [FS.set, hp]
          rw [hnew]
          subst hp
          cases hold : fs.node (cur ++ [e]) with
          | none => rfl
          | some nd =>
            cases nd with
            | file _ _ => rfl
            | dir k => exact absurd hold (hq k)
        · have hnew : (fs.set q (.file m data)).node (cur ++ [e]) = fs.node (cur ++ [e]) := by
            simp [FS.set, hp]
          rw [hnew]
          cases fs.node (cur ++ [e]) with
          | none => rfl
          | some nd =>
            cases nd with
            | file _ _ => rfl
            | dir k => exact ih _

/-- After a successful `WriteFile`, `Stat` of the same path finds the file
with the data written and the mode of `writtenMode`. -/
theorem Stat_WriteFile (name : Str) (data : Bytes) (perm : Nat) (fs : FS)
    (h : (WriteFile name data perm fs).1 = true) :
    ∃ d last, locate fs name = some (d, last) ∧
      locate (WriteFile name data perm fs).2 name = some (d, last) ∧
      Stat (WriteFile name data perm fs).2 name =
        some (.file (writtenMode fs (d ++ [last]) perm) data) := by
  obtain ⟨d, last, hl, hs, hnd, he⟩ := WriteFile_ok name data perm fs h
  have hl2 : locate (WriteFile name data perm fs).2 name = some (d, last) := by
    rw [he]
    unfold locate at hl ⊢
    by_cases hn : name = []
    · rw [if_pos hn] at hl; exact Option.noConfusion hl
    · rw [if_neg hn] at hl ⊢
      have ho : origin (fs.set (d ++ [last]) (.file (writtenMode fs (d ++ [last]) perm) data)) name
          = origin fs name := rfl
      rw [ho, walk_set_file fs _ _ _ hnd]
      exact hl
  refine ⟨d, last, hl, hl2, ?_⟩
  unfold Stat
  rw [hl2]
  simp only
  have h1 : ¬ (last = [] ∨ last = ['.']) := fun x => hs (x.elim Or.inl (fun y => Or.inr (Or.inl y)))
  have h2 : ¬ last = ['.', '.'] := fun x => hs (Or.inr (Or.inr x))
  rw [if_neg h1, if_neg h2, he]
  simp [FS.set]

/-- A call of `get` that found status 200, read the body and logged no error
wrote the body with `WriteFile`, after at most adding directories. -/
theorem get_success (W : World) (url key file : Str) (mode : Nat) (headers : List header)
    (st : State) (resp : Response) (body : Bytes)
    (hdo : W.Do st.requests.length (newRequest (url ++ key) headers) = some resp)
    (hstatus : resp.StatusCode = 200) (hbody : resp.Body = some body)
    (hok : noError st (get W url key file mode headers st) = true) :
    ∃ fs1, addsDirs st.fs fs1 ∧ (WriteFile file body (FileMode mode) fs1).1 = true ∧
      (get W url key file mode headers st).fs = (WriteFile file body (FileMode mode) fs1).2 := by
  unfold get at hok ⊢
  by_cases hnew : W.NewRequest (url ++ key) = true
  · simp only [hnew, Bool.not_true, Bool.false_eq_true, if_false, print_requests, hdo, hstatus,
      ne_eq, not_true_eq_false, hbody] at hok ⊢
    have hmk : addsDirs st.fs
        (if ¬ Dir file = ['.'] then
          MkdirAll ((Dir file).length + 1) (Dir file) (ModeDir ||| 0o775)
            (st.print (Log.infRetrieving (url ++ key))).fs
        else (true, (st.print (Log.infRetrieving (url ++ key))).fs)).2 := by
      split
      · exact MkdirAll_addsDirs _ _ _ _
      · exact addsDirs_refl _
    generalize (if ¬ Dir file = ['.'] then
          MkdirAll ((Dir file).length + 1) (Dir file) (ModeDir ||| 0o775)
            (st.print (Log.infRetrieving (url ++ key))).fs
        else (true, (st.print (Log.infRetrieving (url ++ key))).fs)) = made at hok hmk ⊢
    by_cases h1 : made.1 = true
    · simp only [h1, Bool.not_true, Bool.false_eq_true, if_false] at hok ⊢
      by_cases h2 : (WriteFile file body (FileMode mode) made.2).1 = true
      · simp only [h2, Bool.not_true, Bool.false_eq_true, if_false] at hok ⊢
        exact ⟨made.2, hmk, h2, rfl⟩
      · simp [h2, noError, printed, State.print, Log.isErr] at hok
    · simp [h1, noError, printed, State.print, Log.isErr] at hok
  · simp [hnew, noError, printed, State.print, Log.isErr] at hok

theorem writtenMode_addsDirs (fs fs1 : FS) (q : Path) (perm : Nat) (h : addsDirs fs fs1)
    (hq : ∀ m, fs1.node q ≠ some (.dir m)) : writtenMode fs1 q perm = writtenMode fs q perm := by
  unfold writtenMode createMode
  rcases h.2.2 q with e | ⟨_, m, e⟩
  · rw [e, h.2.1]
  · exact absurd e (hq m)

/-- C4: for every attribute, if the response to `get` has status 200, its
body is read without error, and `get` logs no error (the directory creation
and the write succeed), then after `get` the file at the attribute's path
holds exactly the response body. -/
theorem get_stores_body (W : World) (url key file : Str) (mode : Nat) (headers : List header)
    (st : State) (resp : Response) (body : Bytes)
    (hdo : W.Do st.requests.length (newRequest (url ++ key) headers) = some resp)
    (hstatus : resp.StatusCode = 200) (hbody : resp.Body = some body)
    (hok : noError st (get W url key file mode headers st) = true) :
    ∃ m, Stat (get W url key file mode headers st).fs file = some (.file m body) := by
  obtain ⟨fs1, _, hw, he⟩ := get_success W url key file mode headers st resp body hdo hstatus
    hbody hok
  obtain ⟨d, last, _, _, hs⟩ := Stat_WriteFile file body (FileMode mode) fs1 hw
  exact ⟨_, by rw [he]; exact hs⟩

/-- C4 at the built-in attribute `attributes/ssh-keys`: the body `hello` is
stored in `ssh/authorized_keys`, whose directory `get` creates. -/
theorem get_stores_body_witness :
    noError ⟨configFS, [], []⟩
        (get helloWorld gcpURL "attributes/ssh-keys".toList "ssh/authorized_keys".toList 0o600
          gcpHeaders ⟨configFS, [], []⟩) = true ∧
      (∃ m, Stat (get helloWorld gcpURL "attributes/ssh-keys".toList
          "ssh/authorized_keys".toList 0o600 gcpHeaders ⟨configFS, [], []⟩).fs
          "ssh/authorized_keys".toList = some (.file m [104, 101, 108, 108, 111])) ∧
      (get helloWorld gcpURL "attributes/ssh-keys".toList "ssh/authorized_keys".toList 0o600
          gcpHeaders ⟨configFS, [], []⟩).fs.node
          ["run".toList, "config".toList, "ssh".toList, "authorized_keys".toList] =
        some (.file 0o600 [104, 101, 108, 108, 111]) :=
  ⟨by decide,
    get_stores_body helloWorld gcpURL "attributes/ssh-keys".toList "ssh/authorized_keys".toList
      0o600 gcpHeaders ⟨configFS, [], []⟩ ⟨200, some [104, 101, 108, 108, 111]⟩
      [104, 101, 108, 108, 111] rfl rfl rfl (by decide),
    by decide⟩

/-- C5 fails on the code: `get` succeeds and the file does not carry the
attribute's mode.  (1) `hostname` exists with the bits 0600; after `get` with
mode 0644 it still has 0600.  (2) `userdata` does not exist; after `get` with
mode 0666 under the umask 022 it has 0644.  (3) With mode 7777 (an environment
entry may declare it) a new file gets 0755: `os.FileMode` has its setuid,
setgid and sticky flags elsewhere. -/
theorem get_mode_counterexample :
    (noError ⟨configFS, [], []⟩
        (get helloWorld gcpURL "hostname".toList "hostname".toList 0o644 gcpHeaders
          ⟨configFS, [], []⟩) = true ∧
      Stat (get helloWorld gcpURL "hostname".toList "hostname".toList 0o644 gcpHeaders
          ⟨configFS, [], []⟩).fs "hostname".toList =
        some (.file 0o600 [104, 101, 108, 108, 111]) ∧ 0o600 ≠ 0o644) ∧
      (noError ⟨configFS, [], []⟩
        (get helloWorld gcpURL "attributes/user-data".toList "userdata".toList 0o666 gcpHeaders
          ⟨configFS, [], []⟩) = true ∧
      Stat (get helloWorld gcpURL "attributes/user-data".toList "userdata".toList 0o666
          gcpHeaders ⟨configFS, [], []⟩).fs "userdata".toList =
        some (.file 0o644 [104, 101, 108, 108, 111]) ∧ 0o644 ≠ 0o666) ∧
      (noError ⟨configFS, [], []⟩
        (get helloWorld gcpURL "k".toList "f".toList 0o7777 gcpHeaders
          ⟨configFS, [], []⟩) = true ∧
      Stat (get helloWorld gcpURL "k".toList "f".toList 0o7777
          gcpHeaders ⟨configFS, [], []⟩).fs "f".toList =
        some (.file 0o755 [104, 101, 108, 108, 111]) ∧ 0o755 ≠ 0o7777) := by
  decide

/-- C5, amended: after `get` succeeds (status 200, body read, no error
logged), the file at the attribute's path holds the body, and its permission
bits are those of the file that was at that place before the call, if there
was one, and otherwise the permission bits the attribute's mode asks for
(`syscallMode`) with the bits of the process umask cleared. -/
theorem get_mode (W : World) (url key file : Str) (mode : Nat) (headers : List header)
    (st : State) (resp : Response) (body : Bytes)
    (hdo : W.Do st.requests.length (newRequest (url ++ key) headers) = some resp)
    (hstatus : resp.StatusCode = 200) (hbody : resp.Body = some body)
    (hok : noError st (get W url key file mode headers st) = true) :
    ∃ d last, locate (get W url key file mode headers st).fs file = some (d, last) ∧
      Stat (get W url key file mode headers st).fs file =
        some (.file
          (match st.fs.node (d ++ [last]) with
            | some (.file old _) => old
            | _ => syscallMode (FileMode mode) &&& (0o7777 ^^^ (st.fs.umask &&& 0o777)))
          body) := by
  obtain ⟨fs1, hadd, hw, he⟩ := get_success W url key file mode headers st resp body hdo hstatus
    hbody hok
  obtain ⟨d, last, hl, hl2, hs⟩ := Stat_WriteFile file body (FileMode mode) fs1 hw
  obtain ⟨d', last', hl', _, hnd, _⟩ := WriteFile_ok file body (FileMode mode) fs1 hw
  rw [hl] at hl'
  simp only [Option.some.injEq, Prod.mk.injEq] at hl'
  obtain ⟨rfl, rfl⟩ := hl'
  refine ⟨d, last, by rw [he]; exact hl2, ?_⟩
  rw [he, hs, writtenMode_addsDirs st.fs fs1 _ _ hadd hnd]
  rfl

/-- C5, amended, at both cases: the existing `hostname` keeps its bits 0600,
and the new `userdata`, asked with 0666 under the umask 022, gets 0644. -/
theorem get_mode_witness :
    (noError ⟨configFS, [], []⟩
        (get helloWorld gcpURL "hostname".toList "hostname".toList 0o644 gcpHeaders
          ⟨configFS, [], []⟩) = true ∧
      ∃ d last, locate (get helloWorld gcpURL "hostname".toList "hostname".toList 0o644
          gcpHeaders ⟨configFS, [], []⟩).fs "hostname".toList = some (d, last) ∧
        Stat (get helloWorld gcpURL "hostname".toList "hostname".toList 0o644 gcpHeaders
          ⟨configFS, [], []⟩).fs "hostname".toList =
          some (.file
            (match configFS.node (d ++ [last]) with
              | some (.file old _) => old
              | _ => syscallMode (FileMode 0o644) &&& (0o7777 ^^^ (configFS.umask &&& 0o777)))
            [104, 101, 108, 108, 111])) ∧
      (noError ⟨configFS, [], []⟩
        (get helloWorld gcpURL "attributes/user-data".toList "userdata".toList 0o666 gcpHeaders
          ⟨configFS, [], []⟩) = true ∧
      ∃ d last, locate (get helloWorld gcpURL "attributes/user-data".toList "userdata".toList
          0o666 gcpHeaders ⟨configFS, [], []⟩).fs "userdata".toList = some (d, last) ∧
        Stat (get helloWorld gcpURL "attributes/user-data".toList "userdata".toList 0o666
          gcpHeaders ⟨configFS, [], []⟩).fs "userdata".toList =
          some (.file
            (match configFS.node (d ++ [last]) with
              | some (.file old _) => old
              | _ => syscallMode (FileMode 0o666) &&& (0o7777 ^^^ (configFS.umask &&& 0o777)))
            [104, 101, 108, 108, 111])) :=
  ⟨⟨by decide,
    get_mode helloWorld gcpURL "hostname".toList "hostname".toList 0o644 gcpHeaders
      ⟨configFS, [], []⟩ ⟨200, some [104, 101, 108, 108, 111]⟩ [104, 101, 108, 108, 111]
      rfl rfl rfl (by decide)⟩,
   ⟨by decide,
    get_mode helloWorld gcpURL "attributes/user-data".toList "userdata".toList 0o666 gcpHeaders
      ⟨configFS, [], []⟩ ⟨200, some [104, 101, 108, 108, 111]⟩ [104, 101, 108, 108, 111]
      rfl rfl rfl (by decide)⟩⟩

/-! ## The file paths of the attributes -/

/-- Every attribute `fromEnv` returns was either given to the loop or comes
from a value `envrgx` matched: a non-empty key over the key class and a
non-empty file over the file class. -/
theorem fromEnvLoop_shape (pfx : Str) (l : List Str) :
    ∀ attrs log r, fromEnvLoop pfx l attrs log = some r →
      ∀ x ∈ r.1, x ∈ attrs ∨
        (x.key ≠ [] ∧ (∀ c ∈ x.key, inClass keyClass c = true) ∧
          x.file ≠ [] ∧ (∀ c ∈ x.file, inClass fileClass c = true)) := by
  induction l with
  | nil =>
    intro attrs log r h x hx
    simp only [fromEnvLoop, Option.some.injEq] at h
    subst h
    exact Or.inl hx
  | cons e es ih =>
    intro attrs log r h x hx
    by_cases hp : HasPrefix (entryName e) pfx = true
    · cases hv : entryValue e with
      | none => rw [fromEnvLoop_panic pfx e es attrs log hp hv] at h; exact Option.noConfusion h
      | some v =>
        cases hm : envFields v with
        | none =>
          have hf : FindStringSubmatch envrgx v = [] := by rw [FindStringSubmatch_envrgx, hm]
          rw [fromEnvLoop_skip_value pfx e v es attrs log hp hv hf] at h
          exact ih attrs log r h x hx
        | some t =>
          obtain ⟨k, f, d⟩ := t
          rw [fromEnvLoop_match pfx e v k f d es attrs log hp hv hm] at h
          rcases ih _ _ r h x hx with hmem | hshape
          · rcases List.mem_append.mp hmem with h1 | h1
            · exact Or.inl h1
            · right
              obtain ⟨_, hk, hkc, hf, hfc, _, _⟩ := envFields_some v k f d hm
              simp only [List.mem_singleton] at h1
              subst h1
              exact ⟨hk, hkc, hf, hfc⟩
          · exact Or.inr hshape
    · rw [fromEnvLoop_skip_name pfx e es attrs log (by simpa using hp)] at h
      exact ih attrs log r h x hx

/-- C2 fails on the code: `fromEnv("GCP_")` returns the absolute file
`/etc/passwd` for the entry `GCP_X=k,/etc/passwd,0644`, and the file
`../../tmp/x` for `GCP_Y=k,../../tmp/x,0644`; the run of `main` then writes
`/etc/passwd`, outside `/run/config`. -/
theorem attribute_files_counterexample :
    fromEnv "GCP_".toList
        ["GCP_X=k,/etc/passwd,0644".toList, "GCP_Y=k,../../tmp/x,0644".toList] =
      some ([⟨"k".toList, "/etc/passwd".toList, 0o644⟩,
        ⟨"k".toList, "../../tmp/x".toList, 0o644⟩], []) ∧
      isRelative "/etc/passwd".toList = false ∧
      hasDotDot "../../tmp/x".toList = true ∧
      bootFS.node ["etc".toList, "passwd".toList] = none ∧
      (main helloWorld ["GCP_X=k,/etc/passwd,0644".toList, "GCP_Y=k,../../tmp/x,0644".toList]
          ⟨bootFS, [], []⟩).2.fs.cwd = ["run".toList, "config".toList] ∧
      (main helloWorld ["GCP_X=k,/etc/passwd,0644".toList, "GCP_Y=k,../../tmp/x,0644".toList]
          ⟨bootFS, [], []⟩).2.fs.node ["etc".toList, "passwd".toList] =
        some (.file 0o644 [104, 101, 108, 108, 111]) ∧
      (main helloWorld ["GCP_X=k,/etc/passwd,0644".toList, "GCP_Y=k,../../tmp/x,0644".toList]
          ⟨bootFS, [], []⟩).2.fs.node ["tmp".toList, "x".toList] =
        some (.file 0o644 [104, 101, 108, 108, 111]) := by
  decide

theorem below_refl (fs : FS) : below fs fs := ⟨rfl, fun _ h => absurd rfl h⟩

theorem below_trans {a b c : FS} (h1 : below a b) (h2 : below b c) : below a c := by
  refine ⟨h2.1.trans h1.1, fun p hp => ?_⟩
  by_cases hb : b.node p = a.node p
  · have := h2.2 p (by rw [hb]; exact hp)
    rw [h1.1] at this
    exact this
  · exact h1.2 p hb

theorem set_below (fs : FS) (q : Path) (n : Node) (hq : fs.cwd <+: q ∧ q ≠ fs.cwd) :
    below fs (fs.set q n) := by
  refine ⟨rfl, fun p hp => ?_⟩
  by_cases h : p = q
  · subst h; exact hq
  · exact absurd (by simp [FS.set, h]) hp

/-- Without `..` elements, path resolution only moves down. -/
theorem walk_prefix (fs : FS) (es : List Str) :
    ∀ cur d, walk fs cur es = some d → ['.', '.'] ∉ es → cur <+: d := by
  induction es with
  | nil =>
    intro cur d h _
    simp only [walk, Option.some.injEq] at h
    subst h
    exact List.prefix_refl _
  | cons e es ih =>
    intro cur d h hdd
    have hdd' : ['.', '.'] ∉ es := fun x => hdd (List.mem_cons_of_mem _ x)
    have he : e ≠ ['.', '.'] := fun x => hdd (x ▸ List.mem_cons_self _ _)
    rw [walk] at h
    by_cases h1 : e = [] ∨ e = ['.']
    · rw [if_pos h1] at h; exact ih cur d h hdd'
    · rw [if_neg h1, if_neg he] at h
      cases hn : fs.node (cur ++ [e]) with
      | none => rw [hn] at h; exact Option.noConfusion h
      | some nd =>
        cases nd with
        | file _ _ => rw [hn] at h; exact Option.noConfusion h
        | dir k =>
          rw [hn] at h
          exact (List.prefix_append cur [e]).trans (ih _ d h hdd')

theorem mem_dropLast {α : Type} (x : α) (l : List α) (h : x ∈ l.dropLast) : x ∈ l :=
  (List.dropLast_sublist l).subset h

/-- A relative path without `..` elements names a place strictly below the
working directory. -/
theorem locate_below (fs : FS) (name : Str) (d : Path) (last : Str)
    (hrel : isRelative name = true) (hdd : hasDotDot name = false)
    (h : locate fs name = some (d, last)) : fs.cwd <+: d ++ [last] ∧ d ++ [last] ≠ fs.cwd := by
  unfold locate at h
  by_cases hn : name = []
  · rw [if_pos hn] at h; exact Option.noConfusion h
  · rw [if_neg hn] at h
    have ho : origin fs name = fs.cwd := by
      unfold origin
      have : ¬ name.head? = some '/' := by simpa [isRelative] using hrel
      rw [if_neg this]
    rw [ho] at h
    cases hw : walk fs fs.cwd (splitSlash name).dropLast with
    | none => rw [hw] at h; exact Option.noConfusion h
    | some d' =>
      rw [hw] at h
      simp only [Option.map_some', Option.some.injEq, Prod.mk.injEq] at h
      obtain ⟨rfl, _⟩ := h
      have hnd : ['.', '.'] ∉ (splitSlash name).dropLast := by
        intro x
        have := mem_dropLast _ _ x
        simp [hasDotDot] at hdd
        exact hdd this
      have hp := walk_prefix fs _ _ _ hw hnd
      refine ⟨hp.trans (List.prefix_append _ _), fun e => ?_⟩
      have h1 := hp.length_le
      have h2 := congrArg List.length e
      simp at h2
      omega

/-- `WriteFile` on a relative path without `..` elements changes the tree
only strictly below the working directory. -/
theorem WriteFile_below (name : Str) (data : Bytes) (perm : Nat) (fs : FS)
    (hrel : isRelative name = true) (hdd : hasDotDot name = false) :
    below fs (WriteFile name data perm fs).2 := by
  unfold WriteFile
  cases hl : locate fs name with
  | none => exact below_refl fs
  | some x =>
    obtain ⟨d, last⟩ := x
    have hb := locate_below fs name d last hrel hdd hl
    simp only
    split
    · exact below_refl fs
    · cases fs.node (d ++ [last]) with
      | none => exact set_below fs _ _ hb
      | some nd =>
        cases nd with
        | file _ _ => exact set_below fs _ _ hb
        | dir _ => exact below_refl fs

/-- `get` on a relative file without `..` elements changes the tree only
strictly below the working directory, provided the directory creation does. -/
theorem get_below (W : World) (url key file : Str) (mode : Nat) (headers : List header)
    (st : State) (hrel : isRelative file = true) (hdd : hasDotDot file = false)
    (hmk : below st.fs
      (if Dir file ≠ ['.'] then
        MkdirAll ((Dir file).length + 1) (Dir file) (ModeDir ||| 0o775) st.fs
      else (true, st.fs)).2) :
    below st.fs (get W url key file mode headers st).fs := by
  unfold get
  simp only [print_fs]
  generalize (if Dir file ≠ ['.'] then
        MkdirAll ((Dir file).length + 1) (Dir file) (ModeDir ||| 0o775) st.fs
      else (true, st.fs)) = made at hmk ⊢
  have hw : ∀ body, below st.fs (WriteFile file body (FileMode mode) made.2).2 :=
    fun body => below_trans hmk (WriteFile_below file body _ made.2 hrel hdd)
  split
  · exact below_refl _
  · split
    · exact below_refl _
    · split
      · exact below_refl _
      · split
        · exact below_refl _
        · split
          · exact hmk
          · split
            · exact hw _
            · exact hw _

theorem splitSlash_ne_nil (p : Str) : splitSlash p ≠ [] := by
  induction p with
  | nil => simp [splitSlash]
  | cons c cs ih =>
    rw [splitSlash]
    by_cases hc : c = '/'
    · simp [hc]
    · rw [if_neg hc]
      cases h : splitSlash cs with
      | nil => exact absurd h ih
      | cons a t => simp

/-- Splitting at a slash splits the list of elements. -/
theorem splitSlash_append_slash (a b : Str) :
    splitSlash (a ++ '/' :: b) = splitSlash a ++ splitSlash b := by
  induction a with
  | nil => simp [splitSlash]
  | cons c cs ih =>
    rw [List.cons_append, splitSlash, ih]
    by_cases hc : c = '/'
    · subst hc
      simp [splitSlash]
    · rw [if_neg hc]
      have h2 : splitSlash (c :: cs) = (match splitSlash cs with
          | [] => [[c]]
          | h :: t => (c :: h) :: t) := by
        rw [splitSlash, if_neg hc]
      rw [h2]
      cases h : splitSlash cs with
      | nil => exact absurd h (splitSlash_ne_nil cs)
      | cons x t => simp

theorem splitSlash_no_slash (p : Str) : ∀ e ∈ splitSlash p, '/' ∉ e := by
  induction p with
  | nil => simp [splitSlash]
  | cons c cs ih =>
    rw [splitSlash]
    by_cases hc : c = '/'
    · rw [if_pos hc]
      intro e he
      rcases List.mem_cons.mp he with rfl | he
      · simp
      · exact ih e he
    · rw [if_neg hc]
      cases h : splitSlash cs with
      | nil => exact absurd h (splitSlash_ne_nil cs)
      | cons x t =>
        rw [h] at ih
        intro e he
        rcases List.mem_cons.mp he with rfl | he
        · intro hm
          rcases List.mem_cons.mp hm with h1 | h1
          · exact hc h1.symm
          · exact ih x (List.mem_cons_self _ _) h1
        · exact ih e (List.mem_cons_of_mem _ he)

theorem splitSlash_of_no_slash (e : Str) (h : '/' ∉ e) : splitSlash e = [e] := by
  induction e with
  | nil => rfl
  | cons c cs ih =>
    have hc : c ≠ '/' := fun x => h (x ▸ List.mem_cons_self _ _)
    have hcs : '/' ∉ cs := fun x => h (List.mem_cons_of_mem _ x)
    rw [splitSlash, if_neg hc, ih hcs]

theorem splitSlash_intercalate (out : List Str) (hne : out ≠ [])
    (h : ∀ e ∈ out, '/' ∉ e) : splitSlash (List.intercalate ['/'] out) = out := by
  induction out with
  | nil => exact absurd rfl hne
  | cons a r ih =>
    cases r with
    | nil =>
      have : List.intercalate ['/'] [a] = a := by simp [List.intercalate, List.intersperse]
      rw [this]
      exact splitSlash_of_no_slash a (h a (List.mem_cons_self _ _))
    | cons b r =>
      have : List.intercalate ['/'] (a :: b :: r) = a ++ '/' :: List.intercalate ['/'] (b :: r) := by
        simp [List.intercalate, List.intersperse]
      rw [this, splitSlash_append_slash, ih (by simp) (fun e he => h e (List.mem_cons_of_mem _ he)),
        splitSlash_of_no_slash a (h a (List.mem_cons_self _ _))]
      rfl

theorem hasDotDot_of_append_slash (a b : Str) (h : hasDotDot (a ++ '/' :: b) = false) :
    hasDotDot a = false := by
  unfold hasDotDot at h ⊢
  rw [splitSlash_append_slash] at h
  simp only [List.contains_eq_any_beq, List.any_append, Bool.or_eq_false_iff] at h ⊢
  exact h.1

theorem isRelative_append (a b : Str) (ha : a ≠ []) : isRelative (a ++ b) = isRelative a := by
  cases a with
  | nil => exact absurd rfl ha
  | cons c cs => rfl

/-- A string is what is left of it once the characters `f` accepts are taken
off its end, followed by those characters. -/
theorem reverse_dropWhile_split (f : Char → Bool) (p : Str) :
    p = (p.reverse.dropWhile f).reverse ++ (p.reverse.takeWhile f).reverse := by
  have h := congrArg List.reverse (List.takeWhile_append_dropWhile f p.reverse)
  rw [List.reverse_append, List.reverse_reverse] at h
  exact h.symm

theorem dropWhile_not_slash (l : Str) :
    l.dropWhile (fun c => c != '/') = [] ∨ ∃ t, l.dropWhile (fun c => c != '/') = '/' :: t := by
  induction l with
  | nil => exact Or.inl rfl
  | cons c cs ih =>
    by_cases hc : c = '/'
    · subst hc
      exact Or.inr ⟨cs, by simp [List.dropWhile]⟩
    · have hb : (c != '/') = true := by simp [hc]
      have : (c :: cs).dropWhile (fun c => c != '/') = cs.dropWhile (fun c => c != '/') := by
        simp only [List.dropWhile, hb]
      rw [this]
      exact ih

theorem takeWhile_slash (l : Str) :
    (l.takeWhile (fun c => c == '/')).reverse = [] ∨
      ∃ t, (l.takeWhile (fun c => c == '/')).reverse = '/' :: t := by
  have hall : ∀ c ∈ (l.takeWhile (fun c => c == '/')).reverse, c = '/' := by
    intro c hc
    have := mem_takeWhile_true (fun c => c == '/') l c (List.mem_reverse.mp hc)
    simpa using this
  cases h : (l.takeWhile (fun c => c == '/')).reverse with
  | nil => exact Or.inl rfl
  | cons c t =>
    rw [h] at hall
    have := hall c (List.mem_cons_self _ _)
    subst this
    exact Or.inr ⟨t, rfl⟩

/-- A path without its trailing slashes is still relative and still without
`..` elements, unless nothing is left of it. -/
theorem strip_relative (p : Str) (hrel : isRelative p = true) (hdd : hasDotDot p = false)
    (hne : (p.reverse.dropWhile (fun c => c == '/')).reverse ≠ []) :
    isRelative (p.reverse.dropWhile (fun c => c == '/')).reverse = true ∧
      hasDotDot (p.reverse.dropWhile (fun c => c == '/')).reverse = false := by
  have hs := reverse_dropWhile_split (fun c => c == '/') p
  generalize (p.reverse.dropWhile (fun c => c == '/')).reverse = q at hs hne ⊢
  constructor
  · rw [← isRelative_append q _ hne, ← hs]
    exact hrel
  · rcases takeWhile_slash p.reverse with h | ⟨t, h⟩
    · rw [h, List.append_nil] at hs
      rw [← hs]
      exact hdd
    · rw [h] at hs
      rw [hs] at hdd
      exact hasDotDot_of_append_slash q t hdd

/-- `Mkdir` on a relative path without `..` elements changes the tree only
strictly below the working directory. -/
theorem Mkdir_relative_below (p : Str) (perm : Nat) (fs : FS)
    (hrel : isRelative p = true) (hdd : hasDotDot p = false) :
    below fs (Mkdir p perm fs).2 := by
  unfold Mkdir
  simp only
  by_cases hne : (p.reverse.dropWhile (fun c => c == '/')).reverse = []
  · rw [hne]
    simp only [locate, if_true]
    exact below_refl fs
  · obtain ⟨hrel1, hdd1⟩ := strip_relative p hrel hdd hne
    generalize (p.reverse.dropWhile (fun c => c == '/')).reverse = q at hrel1 hdd1 ⊢
    cases hl : locate fs q with
    | none => exact below_refl fs
    | some x =>
      obtain ⟨d, last⟩ := x
      have hb := locate_below fs q d last hrel1 hdd1 hl
      simp only
      split
      · exact below_refl fs
      · cases fs.node (d ++ [last]) with
        | none => exact set_below fs _ _ hb
        | some nd => exact below_refl fs

/-- The parent `MkdirAll` creates first is the path up to one of its slashes. -/
theorem parent_split (p : Str)
    (h : 1 < ((p.reverse.dropWhile (fun c => c == '/')).dropWhile (fun c => c != '/')).length) :
    (((p.reverse.dropWhile (fun c => c == '/')).dropWhile (fun c => c != '/')).drop 1).reverse ≠ [] ∧
      ∃ b, p = (((p.reverse.dropWhile (fun c => c == '/')).dropWhile
        (fun c => c != '/')).drop 1).reverse ++ '/' :: b := by
  have h1 := reverse_dropWhile_split (fun c => c == '/') p
  have h2 := List.takeWhile_append_dropWhile (fun c => c != '/')
    (p.reverse.dropWhile (fun c => c == '/'))
  generalize p.reverse.dropWhile (fun c => c == '/') = dw1 at h h1 h2 ⊢
  rcases dropWhile_not_slash dw1 with h3 | ⟨t, h3⟩
  · rw [h3] at h
    simp at h
  · rw [h3] at h h2 ⊢
    simp only [List.drop_succ_cons, List.drop_zero]
    constructor
    · intro ht
      have : t = [] := by simpa using ht
      subst this
      simp at h
    · refine ⟨(dw1.takeWhile (fun c => c != '/')).reverse ++
        (p.reverse.takeWhile (fun c => c == '/')).reverse, ?_⟩
      rw [← h2] at h1
      refine h1.trans ?_
      simp

/-- `MkdirAll` on a relative path without `..` elements changes the tree only
strictly below the working directory, whatever the bound of the recursion. -/
theorem MkdirAll_below (perm : Nat) (n : Nat) :
    ∀ (p : Str) (fs : FS), isRelative p = true → hasDotDot p = false →
      below fs (MkdirAll n p perm fs).2 := by
  induction n with
  | zero => intro p fs _ _; exact below_refl fs
  | succ n ih =>
    intro p fs hrel hdd
    rw [MkdirAll]
    cases Stat fs p with
    | some nd =>
      cases nd with
      | file _ _ => exact below_refl fs
      | dir _ => exact below_refl fs
    | none =>
      simp only
      have hup : below fs (if 1 < ((p.reverse.dropWhile (fun c => c == '/')).dropWhile
            (fun c => c != '/')).length then
          MkdirAll n (((p.reverse.dropWhile (fun c => c == '/')).dropWhile
            (fun c => c != '/')).drop 1).reverse perm fs
          else (true, fs)).2 := by
        by_cases h1 : 1 < ((p.reverse.dropWhile (fun c => c == '/')).dropWhile
            (fun c => c != '/')).length
        · rw [if_pos h1]
          obtain ⟨hne, b, hb⟩ := parent_split p h1
          generalize (((p.reverse.dropWhile (fun c => c == '/')).dropWhile
            (fun c => c != '/')).drop 1).reverse = a at hne hb ⊢
          apply ih
          · rw [← isRelative_append a ('/' :: b) hne, ← hb]
            exact hrel
          · rw [hb] at hdd
            exact hasDotDot_of_append_slash a b hdd
        · rw [if_neg h1]
          exact below_refl fs
      generalize (if 1 < ((p.reverse.dropWhile (fun c => c == '/')).dropWhile
            (fun c => c != '/')).length then
          MkdirAll n (((p.reverse.dropWhile (fun c => c == '/')).dropWhile
            (fun c => c != '/')).drop 1).reverse perm fs
          else (true, fs)) = up at hup ⊢
      split
      · exact hup
      · split
        · exact below_trans hup (Mkdir_relative_below p perm up.2 hrel hdd)
        · split <;> exact hup

/-- The loop of `Clean` keeps out of its output the empty element, and any
slash or `..` element that its input does not hold. -/
theorem foldl_cleanStep_elements (r : Bool) (l : List Str)
    (hl : ∀ e ∈ l, '/' ∉ e ∧ e ≠ ['.', '.']) :
    ∀ st : List Str × Nat, (∀ e ∈ st.1, e ≠ [] ∧ '/' ∉ e ∧ e ≠ ['.', '.']) →
      ∀ e ∈ (l.foldl (cleanStep r) st).1, e ≠ [] ∧ '/' ∉ e ∧ e ≠ ['.', '.'] := by
  induction l with
  | nil => intro st h; exact h
  | cons x l ih =>
    intro st h
    rw [List.foldl_cons]
    apply ih (fun e he => hl e (List.mem_cons_of_mem _ he))
    obtain ⟨hx1, hx2⟩ := hl x (List.mem_cons_self _ _)
    unfold cleanStep
    by_cases h1 : x = [] ∨ x = ['.']
    · rw [if_pos h1]; exact h
    · rw [if_neg h1, if_neg hx2]
      intro e he
      rcases List.mem_append.mp he with he | he
      · exact h e he
      · simp only [List.mem_singleton] at he
        subst he
        exact ⟨fun x => h1 (Or.inl x), hx1, hx2⟩

/-- `Clean` of a relative path without `..` elements is such a path. -/
theorem Clean_relative (p : Str) (hrel : isRelative p = true) (hdd : hasDotDot p = false) :
    isRelative (Clean p) = true ∧ hasDotDot (Clean p) = false := by
  unfold Clean
  by_cases hp : p = []
  · rw [if_pos hp]; decide
  · rw [if_neg hp]
    have hroot : ¬ p.head? = some '/' := by simpa [isRelative] using hrel
    simp only [hroot, decide_False, Bool.false_eq_true, if_false]
    have hl : ∀ e ∈ splitSlash p, '/' ∉ e ∧ e ≠ ['.', '.'] := by
      intro e he
      refine ⟨splitSlash_no_slash p e he, fun x => ?_⟩
      subst x
      simp [hasDotDot] at hdd
      exact hdd he
    have hout := foldl_cleanStep_elements false (splitSlash p) hl ([], 0)
      (fun e he => absurd he (List.not_mem_nil _))
    generalize ((splitSlash p).foldl (cleanStep false) ([], 0)).1 = out at hout ⊢
    by_cases ho : out = []
    · rw [if_pos ho]; decide
    · rw [if_neg ho]
      constructor
      · cases out with
        | nil => exact absurd rfl ho
        | cons a r =>
          obtain ⟨ha, hs, _⟩ := hout a (List.mem_cons_self _ _)
          cases a with
          | nil => exact absurd rfl ha
          | cons c cs =>
            have hc : c ≠ '/' := fun x => hs (x ▸ List.mem_cons_self _ _)
            cases r with
            | nil => simp [List.intercalate, List.intersperse, isRelative, hc]
            | cons b r => simp [List.intercalate, List.intersperse, isRelative, hc]
      · unfold hasDotDot
        rw [splitSlash_intercalate out ho (fun e he => (hout e he).2.1)]
        simp only [List.contains_eq_any_beq, List.any_eq_false, beq_iff_eq]
        intro e he x
        exact (hout e he).2.2 x.symm

/-- The directory part of a relative path without `..` elements is such a
path. -/
theorem Dir_relative (file : Str) (hrel : isRelative file = true) (hdd : hasDotDot file = false) :
    isRelative (Dir file) = true ∧ hasDotDot (Dir file) = false := by
  unfold Dir
  have hs := reverse_dropWhile_split (fun c => c != '/') file
  rcases dropWhile_not_slash file.reverse with h | ⟨t, h⟩
  · rw [h]; decide
  · rw [h] at hs ⊢
    rw [List.reverse_cons] at hs ⊢
    rw [List.append_assoc, List.singleton_append] at hs
    have ht : t.reverse ≠ [] := by
      intro x
      rw [x, List.nil_append] at hs
      rw [hs] at hrel
      simp [isRelative] at hrel
    apply Clean_relative
    · rw [isRelative_append _ _ ht, ← isRelative_append _ ('/' ::
        (file.reverse.takeWhile (fun c => c != '/')).reverse) ht, ← hs]
      exact hrel
    · rw [hs] at hdd
      have h1 := hasDotDot_of_append_slash _ _ hdd
      unfold hasDotDot at h1 ⊢
      have : t.reverse ++ ['/'] = t.reverse ++ '/' :: [] := rfl
      rw [this, splitSlash_append_slash]
      simp only [List.contains_eq_any_beq, List.any_append, Bool.or_eq_false_iff] at h1 ⊢
      exact ⟨h1, by decide⟩

/-- `get` on a relative file without `..` elements changes the tree only
strictly below the working directory, whatever the service answers and
whatever the tree holds. -/
theorem get_relative_below (W : World) (url key file : Str) (mode : Nat) (headers : List header)
    (st : State) (hrel : isRelative file = true) (hdd : hasDotDot file = false) :
    below st.fs (get W url key file mode headers st).fs := by
  apply get_below W url key file mode headers st hrel hdd
  obtain ⟨h1, h2⟩ := Dir_relative file hrel hdd
  split
  · exact MkdirAll_below _ _ _ _ h1 h2
  · exact below_refl _

theorem builtin_files :
    ∀ x ∈ gcpAttributes ++ awsAttributes,
      isRelative x.file = true ∧ hasDotDot x.file = false ∧
        (Dir x.file = ['.'] ∨ Dir x.file = "ssh".toList) := by
  decide

/-- C2, amended: every attribute of the two built-in tables has a relative
file path without a `..` element, and `get` on it changes the tree only
strictly below the working directory (`/run/config` once `main` has entered
it).  An attribute that `fromEnv` returns has a non-empty file path over word
characters, `-`, `_`, `/` and `.`, which may be absolute or hold `..`
elements; whenever it is relative and without `..` elements, `get` on it also
changes the tree only strictly below the working directory, whatever the
service answers and whatever the tree holds. -/
theorem attribute_files (W : World) (url : Str) (headers : List header) (st : State)
    (pfx : Str) (environ : List Str) (attrs : List Attribute) (log : List Log)
    (h : fromEnv pfx environ = some (attrs, log)) :
    (∀ x ∈ gcpAttributes ++ awsAttributes,
      isRelative x.file = true ∧ hasDotDot x.file = false ∧
        below st.fs (get W url x.key x.file x.mode headers st).fs) ∧
      (∀ x ∈ attrs, x.file ≠ [] ∧
        (∀ c ∈ x.file, isWord c = true ∨ c = '-' ∨ c = '_' ∨ c = '/' ∨ c = '.') ∧
        (isRelative x.file = true → hasDotDot x.file = false →
          below st.fs (get W url x.key x.file x.mode headers st).fs)) := by
  constructor
  · intro x hx
    obtain ⟨hrel, hdd, _⟩ := builtin_files x hx
    exact ⟨hrel, hdd, get_relative_below W url x.key x.file x.mode headers st hrel hdd⟩
  · intro x hx
    rcases fromEnvLoop_shape pfx environ [] [] (attrs, log) h x hx with hmem | ⟨_, _, hf, hfc⟩
    · exact absurd hmem (List.not_mem_nil _)
    · refine ⟨hf, fun c hc => ?_,
        fun hrel hdd => get_relative_below W url x.key x.file x.mode headers st hrel hdd⟩
      have := hfc c hc
      rw [inClass_fileClass] at this
      simp only [Bool.or_eq_true, decide_eq_true_eq] at this
      tauto

/-- C2, amended, at an environment that declares the file `/etc/passwd` and
the file `custom/path` of the specification's first scenario: the built-in
files stay below the working directory, both declared files are non-empty
strings over the file characters, and `get` on `custom/path`, which is
relative and without `..` elements, changes the tree only strictly below the
working directory. -/
theorem attribute_files_witness :
    fromEnv "GCP_".toList ["GCP_X=k,/etc/passwd,0644".toList,
        "GCP_FOO=attributes/custom,custom/path,0640".toList] =
        some ([⟨"k".toList, "/etc/passwd".toList, 0o644⟩,
          ⟨"attributes/custom".toList, "custom/path".toList, 0o640⟩], []) ∧
      isRelative "custom/path".toList = true ∧ hasDotDot "custom/path".toList = false ∧
      below configFS (get helloWorld gcpURL "attributes/custom".toList "custom/path".toList 0o640
        gcpHeaders ⟨configFS, [], []⟩).fs ∧
      ((∀ x ∈ gcpAttributes ++ awsAttributes,
        isRelative x.file = true ∧ hasDotDot x.file = false ∧
          below configFS (get helloWorld gcpURL x.key x.file x.mode gcpHeaders
            ⟨configFS, [], []⟩).fs) ∧
        (∀ x ∈ [Attribute.mk "k".toList "/etc/passwd".toList 0o644,
            Attribute.mk "attributes/custom".toList "custom/path".toList 0o640], x.file ≠ [] ∧
          (∀ c ∈ x.file, isWord c = true ∨ c = '-' ∨ c = '_' ∨ c = '/' ∨ c = '.') ∧
          (isRelative x.file = true → hasDotDot x.file = false →
            below configFS (get helloWorld gcpURL x.key x.file x.mode gcpHeaders
              ⟨configFS, [], []⟩).fs))) :=
  have h := attribute_files helloWorld gcpURL gcpHeaders ⟨configFS, [], []⟩ "GCP_".toList
    ["GCP_X=k,/etc/passwd,0644".toList, "GCP_FOO=attributes/custom,custom/path,0640".toList]
    [⟨"k".toList, "/etc/passwd".toList, 0o644⟩,
      ⟨"attributes/custom".toList, "custom/path".toList, 0o640⟩] [] (by decide)
  ⟨by decide, by decide, by decide,
    (h.2 ⟨"attributes/custom".toList, "custom/path".toList, 0o640⟩
      (List.mem_cons_of_mem _ (List.mem_cons_self _ _))).2.2 (by decide) (by decide), h⟩

/-! ## Further properties -/

/-- The pattern `envrgx` on a whole value: `FindStringSubmatch` returns the
value and the fields `key`, `file`, `mode` exactly when the value is
`key,file,mode` with a non-empty key over word characters, `-`, `_`, `/`, a
non-empty file over those and `.`, and a mode of four decimal digits. -/
theorem envrgx_match_iff (v k f d : Str) :
    FindStringSubmatch envrgx v = [v, k, f, d] ↔
      (v = k ++ ',' :: (f ++ ',' :: d) ∧
        k ≠ [] ∧ (∀ c ∈ k, isWord c = true ∨ c = '-' ∨ c = '_' ∨ c = '/') ∧
        f ≠ [] ∧ (∀ c ∈ f, isWord c = true ∨ c = '-' ∨ c = '_' ∨ c = '/' ∨ c = '.') ∧
        d.length = 4 ∧ (∀ c ∈ d, isDigit c = true)) := by
  have hk : ∀ c, inClass keyClass c = true ↔
      (isWord c = true ∨ c = '-' ∨ c = '_' ∨ c = '/') := by
    intro c
    rw [inClass_keyClass]
    simp only [Bool.or_eq_true, decide_eq_true_eq]
    tauto
  have hf : ∀ c, inClass fileClass c = true ↔
      (isWord c = true ∨ c = '-' ∨ c = '_' ∨ c = '/' ∨ c = '.') := by
    intro c
    rw [inClass_fileClass]
    simp only [Bool.or_eq_true, decide_eq_true_eq]
    tauto
  rw [FindStringSubmatch_envrgx]
  constructor
  · intro h
    cases hm : envFields v with
    | none => rw [hm] at h; simp at h
    | some t =>
      obtain ⟨k', f', d'⟩ := t
      rw [hm] at h
      simp only [List.cons.injEq, true_and, and_true] at h
      obtain ⟨rfl, rfl, rfl⟩ := h
      obtain ⟨h0, h1, h2, h3, h4, h5, h6⟩ := envFields_some v _ _ _ hm
      exact ⟨h0, h1, fun c hc => (hk c).mp (h2 c hc), h3, fun c hc => (hf c).mp (h4 c hc), h5, h6⟩
  · rintro ⟨rfl, h1, h2, h3, h4, h5, h6⟩
    rw [envFields_of_fields k f d h1 (fun c hc => (hk c).mpr (h2 c hc)) h3
      (fun c hc => (hf c).mpr (h4 c hc)) h5 h6]

/-- The only panic of `fromEnv`: it panics exactly when the environment holds
an entry without `=` whose text starts with the prefix; the submatches `m`
are never indexed out of range. -/
theorem fromEnv_panics_iff (pfx : Str) (environ : List Str) :
    fromEnv pfx environ = none ↔
      ∃ e ∈ environ, HasPrefix (entryName e) pfx = true ∧ entryValue e = none := by
  unfold fromEnv
  generalize ([] : List Attribute) = attrs
  generalize ([] : List Log) = log
  induction environ generalizing attrs log with
  | nil => simp [fromEnvLoop]
  | cons e es ih =>
    by_cases hp : HasPrefix (entryName e) pfx = true
    · cases hv : entryValue e with
      | none =>
        rw [fromEnvLoop_panic pfx e es attrs log hp hv]
        simp only [true_iff]
        exact ⟨e, List.mem_cons_self _ _, hp, hv⟩
      | some v =>
        have hrec : ∃ attrs' log', fromEnvLoop pfx (e :: es) attrs log =
            fromEnvLoop pfx es attrs' log' := by
          cases hm : envFields v with
          | none =>
            have hf : FindStringSubmatch envrgx v = [] := by
              rw [FindStringSubmatch_envrgx, hm]
            exact ⟨_, _, fromEnvLoop_skip_value pfx e v es attrs log hp hv hf⟩
          | some t =>
            obtain ⟨k, f, d⟩ := t
            exact ⟨_, _, fromEnvLoop_match pfx e v k f d es attrs log hp hv hm⟩
        obtain ⟨attrs', log', hr⟩ := hrec
        rw [hr, ih]
        constructor
        · rintro ⟨x, hx, h1, h2⟩
          exact ⟨x, List.mem_cons_of_mem _ hx, h1, h2⟩
        · rintro ⟨x, hx, h1, h2⟩
          rcases List.mem_cons.mp hx with rfl | hx
          · rw [hv] at h2; exact Option.noConfusion h2
          · exact ⟨x, hx, h1, h2⟩
    · rw [fromEnvLoop_skip_name pfx e es attrs log (by simpa using hp), ih]
      constructor
      · rintro ⟨x, hx, h1, h2⟩
        exact ⟨x, List.mem_cons_of_mem _ hx, h1, h2⟩
      · rintro ⟨x, hx, h1, h2⟩
        rcases List.mem_cons.mp hx with rfl | hx
        · exact absurd h1 hp
        · exact ⟨x, hx, h1, h2⟩

/-- The first end-to-end scenario of the specification: with
`GCP_FOO=attributes/custom,custom/path,0640` in the environment and a
metadata service that answers `hello`, the run ends with status 0 and the file
`custom/path` under `/run/config` holds exactly `hello`, with mode 0640 (the
umask 022 clears none of these bits). -/
theorem scenario_custom_attribute :
    (main helloWorld ["GCP_FOO=attributes/custom,custom/path,0640".toList]
        ⟨bootFS, [], []⟩).1 = Exit.done ∧
      (main helloWorld ["GCP_FOO=attributes/custom,custom/path,0640".toList]
        ⟨bootFS, [], []⟩).2.fs.node
          ["run".toList, "config".toList, "custom".toList, "path".toList] =
        some (.file 0o640 [104, 101, 108, 108, 111]) := by
  decide

/-- The third end-to-end scenario of the specification: when the
configuration root cannot be created or entered, `main` exits with a non-zero
status and no attribute is fetched. -/
theorem main_setup_failure (W : World) (environ : List Str) (st : State)
    (h : (MkdirAll (cfgPath.length + 1) cfgPath 0o755 st.fs).1 = false ∨
      Chdir cfgPath (MkdirAll (cfgPath.length + 1) cfgPath 0o755 st.fs).2 = none) :
    (main W environ st).1 = Exit.fatal ∧ (main W environ st).2.requests = st.requests ∧
      (main W environ st).2.log = st.log := by
  unfold main
  simp only
  rcases h with h | h
  · simp [h]
  · by_cases hm : (MkdirAll (cfgPath.length + 1) cfgPath 0o755 st.fs).1 = true
    · simp [hm, h]
    · simp [hm]

/-- The third scenario on a tree where `/run` is a file. -/
theorem main_setup_failure_witness :
    (MkdirAll (cfgPath.length + 1) cfgPath 0o755 brokenFS).1 = false ∧
      (main helloWorld [] ⟨brokenFS, [], []⟩).1 = Exit.fatal ∧
      (main helloWorld [] ⟨brokenFS, [], []⟩).2.requests = [] ∧
      (main helloWorld [] ⟨brokenFS, [], []⟩).2.log = [] :=
  ⟨by decide, main_setup_failure helloWorld [] ⟨brokenFS, [], []⟩ (Or.inl (by decide))⟩

theorem Cut_isSome_of_mem (e : Str) (h : '=' ∈ e) : (Cut ['='] e).isSome = true := by
  induction e with
  | nil => simp at h
  | cons a e ih =>
    by_cases ha : '=' = a
    · subst ha; simp [Cut]
    · have hm : '=' ∈ e := by
        rcases List.mem_cons.mp h with h1 | h1
        · exact absurd h1 ha
        · exact h1
      have := ih hm
      simp [Cut, ha]
      cases hc : Cut ['='] e with
      | none => rw [hc] at this; simp at this
      | some p => simp

theorem entryValue_isSome_of_mem (e : Str) (h : '=' ∈ e) : (entryValue e).isSome = true := by
  have hc := Cut_isSome_of_mem e h
  unfold entryValue
  rw [sep_eq, SplitN_two]
  cases hx : Cut ['='] e with
  | none => rw [hx] at hc; simp at hc
  | some p => obtain ⟨a, b⟩ := p; simp

/-- On an environment whose entries all hold a `=`, `fromEnv` returns for
every prefix: it indexes neither `kv` nor the submatches `m` out of range. -/
theorem fromEnv_returns (pfx : Str) (environ : List Str) (h : ∀ e ∈ environ, '=' ∈ e) :
    ∃ attrs log, fromEnv pfx environ = some (attrs, log) := by
  cases hr : fromEnv pfx environ with
  | some r => exact ⟨r.1, r.2, rfl⟩
  | none =>
    obtain ⟨e, he, _, hv⟩ := (fromEnv_panics_iff pfx environ).mp hr
    have := entryValue_isSome_of_mem e (h e he)
    rw [hv] at this
    simp at this

/-- `fromEnv` returns on an environment of well-formed entries. -/
theorem fromEnv_returns_witness :
    (∀ e ∈ ["GCP_FOO=attributes/custom,custom/path,0640".toList, "GCP_BAD=".toList,
        "HOME=/root".toList], '=' ∈ e) ∧
      ∃ attrs log, fromEnv "GCP_".toList
        ["GCP_FOO=attributes/custom,custom/path,0640".toList, "GCP_BAD=".toList,
          "HOME=/root".toList] = some (attrs, log) :=
  ⟨by decide, fromEnv_returns _ _ (by decide)⟩

theorem dropWhile_length_le (p : Char → Bool) (l : Str) : (l.dropWhile p).length ≤ l.length := by
  rw [dropWhile_length]
  omega

/-- The bound of `MkdirAll` is never reached: any two bounds above the length
of the path give the same result, so `MkdirAll (p.length + 1) p` is the result
of the unbounded recursion of the library. -/
theorem MkdirAll_fuel (n : Nat) :
    ∀ (m : Nat) (p : Str) (perm : Nat) (fs : FS), p.length < n → p.length < m →
      MkdirAll n p perm fs = MkdirAll m p perm fs := by
  induction n with
  | zero => intro m p perm fs h; exact absurd h (Nat.not_lt_zero _)
  | succ n ih =>
    intro m p perm fs hn hm
    cases m with
    | zero => exact absurd hm (Nat.not_lt_zero _)
    | succ m =>
      rw [MkdirAll, MkdirAll]
      have hlen : ((p.reverse.dropWhile (fun c => c == '/')).dropWhile
          (fun c => c != '/')).length ≤ p.length := by
        have h1 := dropWhile_length_le (fun c => c != '/')
          (p.reverse.dropWhile (fun c => c == '/'))
        have h2 := dropWhile_length_le (fun c => c == '/') p.reverse
        simp only [List.length_reverse] at h2
        omega
      have hrec : 1 < ((p.reverse.dropWhile (fun c => c == '/')).dropWhile
          (fun c => c != '/')).length →
          MkdirAll n (((p.reverse.dropWhile (fun c => c == '/')).dropWhile
            (fun c => c != '/')).drop 1).reverse perm fs =
          MkdirAll m (((p.reverse.dropWhile (fun c => c == '/')).dropWhile
            (fun c => c != '/')).drop 1).reverse perm fs := by
        intro h1
        apply ih
        · simp only [List.length_reverse, List.length_drop]; omega
        · simp only [List.length_reverse, List.length_drop]; omega
      by_cases h1 : 1 < ((p.reverse.dropWhile (fun c => c == '/')).dropWhile
          (fun c => c != '/')).length
      · simp only [h1, if_true, hrec h1]
      · simp only [h1, if_false]

theorem foldl_get_below (W : World) (url : Str) (headers : List header)
    (pre : State → Attribute → State) (hpre : ∀ s x, (pre s x).fs = s.fs)
    (l : List Attribute) :
    ∀ st : State, (∀ x ∈ l, isRelative x.file = true ∧ hasDotDot x.file = false) →
      below st.fs (l.foldl (fun s x => get W url x.key x.file x.mode headers (pre s x)) st).fs := by
  induction l with
  | nil => intro st _; exact below_refl _
  | cons a l ih =>
    intro st h
    rw [List.foldl_cons]
    obtain ⟨hrel, hdd⟩ := h a (List.mem_cons_self _ _)
    have h1 := get_relative_below W url a.key a.file a.mode headers (pre st a) hrel hdd
    rw [hpre] at h1
    exact below_trans h1 (ih _ (fun x hx => h x (List.mem_cons_of_mem _ hx)))

/-- The whole pass stays below the working directory: on an environment on
which `fromEnv` returns for both prefixes and declares only relative file
paths without `..` elements, the pass changes the tree only strictly below the
working directory, whatever the service answers. -/
theorem pass_below (W : World) (environ : List Str) (st : State)
    (g a : List Attribute) (lg la : List Log)
    (hg : fromEnv "GCP_".toList environ = some (g, lg))
    (ha : fromEnv "AWS_".toList environ = some (a, la))
    (hfiles : ∀ x ∈ g ++ a, isRelative x.file = true ∧ hasDotDot x.file = false) :
    (pass W environ st).1 = Exit.done ∧ below st.fs (pass W environ st).2.fs := by
  have hb : ∀ x ∈ gcpAttributes ++ awsAttributes,
      isRelative x.file = true ∧ hasDotDot x.file = false :=
    fun x hx => ⟨(builtin_files x hx).1, (builtin_files x hx).2.1⟩
  have hG := foldl_get_below W gcpURL gcpHeaders
    (fun s x => s.print (.infGet "GCP".toList x.key x.file)) (fun _ _ => rfl) (gcpAttributes ++ g)
  have hA := foldl_get_below W awsURL awsHeaders
    (fun s x => s.print (.infGet "AWS".toList x.key x.file)) (fun _ _ => rfl) (awsAttributes ++ a)
  have hfg : ∀ x ∈ gcpAttributes ++ g, isRelative x.file = true ∧ hasDotDot x.file = false := by
    intro x hx
    rcases List.mem_append.mp hx with h | h
    · exact hb x (List.mem_append_left _ h)
    · exact hfiles x (List.mem_append_left _ h)
  have hfa : ∀ x ∈ awsAttributes ++ a, isRelative x.file = true ∧ hasDotDot x.file = false := by
    intro x hx
    rcases List.mem_append.mp hx with h | h
    · exact hb x (List.mem_append_right _ h)
    · exact hfiles x (List.mem_append_right _ h)
  unfold pass
  simp only [hg, ha]
  refine ⟨trivial, ?_⟩
  unfold gcpGet awsGet
  exact below_trans (hG { st with log := st.log ++ lg } hfg) (hA _ hfa)

/-- The pass of the specification's first scenario, run in `/run/config`:
every node it changes lies strictly below `/run/config`. -/
theorem pass_below_witness :
    fromEnv "GCP_".toList ["GCP_FOO=attributes/custom,custom/path,0640".toList] =
        some ([⟨"attributes/custom".toList, "custom/path".toList, 0o640⟩], []) ∧
      fromEnv "AWS_".toList ["GCP_FOO=attributes/custom,custom/path,0640".toList] =
        some ([], []) ∧
      configFS.cwd = ["run".toList, "config".toList] ∧
      (pass helloWorld ["GCP_FOO=attributes/custom,custom/path,0640".toList]
        ⟨configFS, [], []⟩).1 = Exit.done ∧
      below configFS (pass helloWorld ["GCP_FOO=attributes/custom,custom/path,0640".toList]
        ⟨configFS, [], []⟩).2.fs :=
  ⟨by decide, by decide, rfl,
    pass_below helloWorld ["GCP_FOO=attributes/custom,custom/path,0640".toList]
      ⟨configFS, [], []⟩ [⟨"attributes/custom".toList, "custom/path".toList, 0o640⟩] [] [] []
      (by decide) (by decide) (by decide)⟩

end Metadata
